import Mathlib

/-!
Verification development for the herb-input parser and formula-matching
engine (`src/utils.ts` of the TOT repository).

Modelling conventions:
* JS numbers are modelled as exact rationals (`ℚ`).
* JS strings are modelled as `String` / `List Char`; the two regular
  expressions of the source are modelled as deterministic character-class
  scanners (the regexes involved are anchored and their character classes
  are pairwise disjoint, so the greedy match is deterministic).
* `Record<string, number>` is modelled as an association list
  (`List (String × ℚ)`) with first-key lookup and JS object insertion
  semantics (update in place, append when fresh).
* the globals `HERB_ALIASES` and `CLASSIC_FORMULAS` live in a source file
  that is not part of the matching core; every function that reads them
  takes the table as an explicit argument, and all theorems quantify over
  it.
-/

namespace TOT

/-- Character class `[一-龥]` (CJK ideographs) used by both source regexes. -/
def isCJK (c : Char) : Bool := 0x4e00 ≤ c.toNat && c.toNat ≤ 0x9fa5

/-- Character class `[0-9]` (the regex class `\\d`). -/
def isDigitCh (c : Char) : Bool := 48 ≤ c.toNat && c.toNat ≤ 57

/-- Character class `[a-zA-Z]`. -/
def isLatinLetter (c : Char) : Bool :=
  (('a' ≤ c) && (c ≤ 'z')) || (('A' ≤ c) && (c ≤ 'Z'))

/-- Character class `[a-zA-Z一-龥]` of the parser's unit capture group. -/
def isUnitChar (c : Char) : Bool := isLatinLetter c || isCJK c

/-- The JavaScript `\s` character class (ECMAScript WhiteSpace plus LineTerminator). -/
def isJsWhitespace (c : Char) : Bool :=
  c.toNat = 0x9 || c.toNat = 0xA || c.toNat = 0xB || c.toNat = 0xC ||
  c.toNat = 0xD || c.toNat = 0x20 || c.toNat = 0xA0 || c.toNat = 0x1680 ||
  (0x2000 ≤ c.toNat && c.toNat ≤ 0x200A) || c.toNat = 0x2028 ||
  c.toNat = 0x2029 || c.toNat = 0x202F || c.toNat = 0x205F ||
  c.toNat = 0x3000 || c.toNat = 0xFEFF

/-- The punctuation class `[，,、\n\r\t。]` that `parseFormulaInput` replaces by
spaces, by code point: `，` U+FF0C, `,` U+002C, `、` U+3001, newline, carriage
return, tab, `。` U+3002. -/
def isParserPunct (c : Char) : Bool :=
  c.toNat = 0xFF0C || c.toNat = 0x2C || c.toNat = 0x3001 ||
  c.toNat = 0xA || c.toNat = 0xD || c.toNat = 0x9 || c.toNat = 0x3002

/-- The delimiter class `[，,、\s]` on which `parseDosageString` splits. -/
def isDecoderDelim (c : Char) : Bool :=
  c.toNat = 0xFF0C || c.toNat = 0x2C || c.toNat = 0x3001 || isJsWhitespace c

/-- The full delimiter class of the input parser: the replaced punctuation
together with JS whitespace (the parser replaces punctuation by spaces and then
splits on whitespace runs). -/
def isParserDelim (c : Char) : Bool := isParserPunct c || isJsWhitespace c

mutual
/-- State of `String.prototype.split` on a one-or-more-delimiters regex while
reading a chunk; `cur` is the reversed chunk read so far. -/
def splitRunsGo (p : Char → Bool) (cur : List Char) : List Char → List (List Char)
  | [] => [cur.reverse]
  | c :: rest =>
    if p c then cur.reverse :: splitRunsSkip p rest else splitRunsGo p (c :: cur) rest

/-- State of the same split while inside a delimiter run. -/
def splitRunsSkip (p : Char → Bool) : List Char → List (List Char)
  | [] => [[]]
  | c :: rest => if p c then splitRunsSkip p rest else splitRunsGo p [c] rest
end

/-- Models `str.split(regex)` where `regex` is one-or-more characters of class
`p`: maximal delimiter runs separate chunks, with an empty leading (resp.
trailing) chunk when the string starts (resp. ends) with a delimiter. -/
def splitOnRuns (p : Char → Bool) (l : List Char) : List (List Char) :=
  splitRunsGo p [] l

/-- Decimal digit character for a value below 10. -/
def digitChar (d : Nat) : Char := Char.ofNat (48 + d)

/-- Base-10 digit string of a natural number, most significant digit first. -/
def natDigits (n : Nat) : List Char :=
  if _h : n < 10 then [digitChar n]
  else natDigits (n / 10) ++ [digitChar (n % 10)]
termination_by n
decreasing_by exact Nat.div_lt_self (by omega) (by omega)

/-- Numeric value of a digit string (the value `parseFloat` assigns to its
integer or fractional digit block). -/
def digitsVal (l : List Char) : Nat :=
  l.foldl (fun acc c => acc * 10 + (c.toNat - 48)) 0

/-- Left-pads a digit string with zeros up to length `k`. -/
def padZeros (k : Nat) (l : List Char) : List Char :=
  List.replicate (k - l.length) '0' ++ l

/-- Value `parseFloat` gives to a chunk of shape `digits[.digits]` or
`[digits].digits` (the only shapes the two source regexes can capture). -/
def parseDecimal (l : List Char) : ℚ :=
  let intPart := l.takeWhile isDigitCh
  let rest := l.drop intPart.length
  match rest with
  | [] => (digitsVal intPart : ℚ)
  | _ :: fracDigits => (digitsVal intPart : ℚ) + (digitsVal fracDigits : ℚ) / 10 ^ fracDigits.length

/-- Whether a chunk is matched in full by the parser's dosage group `\d*\.?\d+`. -/
def isNumShape1 (l : List Char) : Bool :=
  let a := l.takeWhile isDigitCh
  match l.drop a.length with
  | [] => !a.isEmpty
  | c :: ds => c == '.' && !ds.isEmpty && ds.all isDigitCh

/-- Whether a chunk is matched in full by the codec's amount group `\d+(\.\d+)?`. -/
def isNumShape2 (l : List Char) : Bool :=
  let a := l.takeWhile isDigitCh
  !a.isEmpty &&
    match l.drop a.length with
    | [] => true
    | c :: ds => c == '.' && !ds.isEmpty && ds.all isDigitCh

/-- Association-list model of `Record<string, number>`. -/
abbrev DosageRec := List (String × ℚ)

/-- JS object property write `m[k] = v`: update in place when the key exists,
append otherwise (preserving insertion order). -/
def recordSet (m : DosageRec) (k : String) (v : ℚ) : DosageRec :=
  if m.any (fun p => p.1 == k) then
    m.map (fun p => if p.1 == k then (k, v) else p)
  else m ++ [(k, v)]

/-- JS truthiness of the property read `standardDosage[name]`: the key is
present and its value is nonzero. -/
def truthyNum (o : Option ℚ) : Bool :=
  match o with
  | none => false
  | some v => v != 0

/-- Positional-notation digit string of a non-negative rational with a finite
decimal expansion (ECMAScript Number-to-String steps for the digit-position
window `-6 < n ≤ 21`); `none` when the denominator divides no power of ten
reachable by the bounded search. -/
def plainDecimal (v : ℚ) : Option (List Char) :=
  match (List.range (v.den + 1)).find? (fun k => 10 ^ k % v.den == 0) with
  | none => none
  | some k =>
    let n := v.num.toNat * (10 ^ k / v.den)
    if k = 0 then some (natDigits n)
    else some (natDigits (n / 10 ^ k) ++ '.' :: padZeros k (natDigits (n % 10 ^ k)))

/-- Factors all powers of ten out of a positive natural: returns `(s, z)` with
`n = s * 10 ^ z` and `s` not divisible by 10. -/
def stripTens (n : ℕ) : ℕ × ℕ :=
  if h : n % 10 = 0 ∧ 0 < n then
    ((stripTens (n / 10)).1, (stripTens (n / 10)).2 + 1)
  else (n, 0)
termination_by n
decreasing_by all_goals exact Nat.div_lt_self h.2 (by omega)

/-- ECMAScript exponent-notation rendering of significand digits `ds` and
exponent `e`: the first digit, a point and the remaining digits when there is
more than one, then `e`, an explicit sign, and the exponent's digits. -/
def expRender (ds : List Char) (e : ℤ) : List Char :=
  (match ds with
   | [] => []
   | [d] => [d]
   | d :: rest => d :: '.' :: rest) ++
    'e' :: (if 0 ≤ e then '+' else '-') :: natDigits e.natAbs

/-- Exponent-notation digit string of a non-negative rational with a finite
decimal expansion (ECMAScript Number-to-String steps for digit positions
outside `-6 < n ≤ 21`): with `v = s * 10 ^ (z - k)` and `s` free of trailing
zeros, the significand is `s`'s digit string and the exponent is
`n - 1 = |digits s| + z - k - 1`. -/
def expDigits (v : ℚ) : Option (List Char) :=
  match (List.range (v.den + 1)).find? (fun k => 10 ^ k % v.den == 0) with
  | none => none
  | some k =>
    let n := v.num.toNat * (10 ^ k / v.den)
    let s := stripTens n
    some (expRender (natDigits s.1) ((natDigits s.1).length + s.2 - k - 1))

/-- ECMAScript Number-to-String on a non-negative value with a finite decimal
expansion: positional notation for zero and for values in `[10 ^ -6, 10 ^ 21)`
(the spec's digit-position window `-6 < n ≤ 21`), exponent notation
otherwise. -/
def formatNonnegDecimal (v : ℚ) : Option (List Char) :=
  if v = 0 ∨ (1 : ℚ) / 10 ^ 6 ≤ v ∧ v < 10 ^ 21 then plainDecimal v
  else expDigits v

/-- Models the template-literal stringification of a number value with a
finite decimal expansion. -/
def formatJsNumber (v : ℚ) : List Char :=
  if v < 0 then '-' :: (formatNonnegDecimal (-v)).getD []
  else (formatNonnegDecimal v).getD []

/-- One chunk of `parseDosageString`: the regex
`^([一-龥]+)[:=]?(\d+(\.\d+)?)$` as a deterministic scanner. -/
def dosageChunk (part : List Char) : Option (String × ℚ) :=
  let name := part.takeWhile isCJK
  let rest := part.drop name.length
  if name.isEmpty then none
  else
    let rest2 := match rest with
      | c :: tl => if c == ':' || c == '=' then tl else rest
      | [] => rest
    if isNumShape2 rest2 then some (String.mk name, parseDecimal rest2) else none

/-- Embedding of `parseDosageString` (src/utils.ts:68-81). -/
def parseDosageString (s : String) : DosageRec :=
  if s.data.isEmpty then []
  else
    (splitOnRuns isDecoderDelim s.data).foldl
      (fun result part =>
        match dosageChunk part with
        | some (name, amount) => recordSet result name amount
        | none => result)
      []

/-- Joins chunks with single spaces, as `Array.prototype.join(' ')`. -/
def joinSpace : List (List Char) → List Char
  | [] => []
  | [x] => x
  | x :: y :: rest => x ++ ' ' :: joinSpace (y :: rest)

/-- Embedding of `formatDosageToString` (src/utils.ts:86-91). -/
def formatDosageToString (dosage : Option DosageRec) : String :=
  match dosage with
  | none => ""
  | some m => String.mk (joinSpace (m.map (fun p => p.1.data ++ ':' :: formatJsNumber p.2)))

/-- Embedding of the alias lookup `HERB_ALIASES[rawName] || rawName`, with the
alias table passed explicitly. -/
def resolveAlias (aliases : List (String × String)) (rawName : String) : String :=
  match aliases.lookup rawName with
  | some v => if v.data.isEmpty then rawName else v
  | none => rawName

/-- Embedding of the `Herb` interface (src/types.ts). -/
structure Herb where
  name : String
  dosage : ℚ
  unit : String
  originalText : String
deriving DecidableEq

/-- The three capture groups of the parser regex
`^([一-龥]+)(\d*\.?\d+)?([a-zA-Z一-龥]+)?$`. -/
structure TokenCaptures where
  name : List Char
  num : Option (List Char)
  unitStr : Option (List Char)
deriving DecidableEq

/-- Deterministic evaluation of the parser regex on one token: the name is the
maximal CJK prefix, the dosage the maximal following run of digits and dots
(which must then have the shape `\d*\.?\d+`), and the unit the remainder
(which must consist of letter/CJK characters). The character classes of the
three groups are pairwise disjoint and the pattern is anchored, so this is
exactly the greedy regex match. -/
def tokenCaptures (token : List Char) : Option TokenCaptures :=
  let name := token.takeWhile isCJK
  let rest := token.drop name.length
  if name.isEmpty then none
  else
    let d := rest.takeWhile (fun c => isDigitCh c || c == '.')
    let u := rest.drop d.length
    if (d.isEmpty || isNumShape1 d) && u.all isUnitChar then
      some ⟨name, if d.isEmpty then none else some d, if u.isEmpty then none else some u⟩
    else none

/-- Builds the `Herb` pushed by `parseFormulaInput` for a matched token. -/
def mkHerb (aliases : List (String × String)) (token : List Char) (caps : TokenCaptures) : Herb :=
  { name := resolveAlias aliases (String.mk caps.name)
    dosage := match caps.num with
      | some ds => parseDecimal ds
      | none => 0
    unit := match caps.unitStr with
      | some u => String.mk u
      | none => "g"
    originalText := String.mk token }

/-- The delimiter normalization step of `parseFormulaInput`. -/
def normalizeChar (c : Char) : Char := if isParserPunct c then ' ' else c

/-- Tokenization of `parseFormulaInput`: replace punctuation by spaces, split
on whitespace runs, drop empty tokens (the `trim` of the source only removes
tokens that this filter drops anyway). -/
def tokenize (s : String) : List (List Char) :=
  (splitOnRuns isJsWhitespace (s.data.map normalizeChar)).filter (fun t => !t.isEmpty)

/-- Embedding of `parseFormulaInput` (src/utils.ts:12-49), with the alias
table passed explicitly. -/
def parseFormulaInput (aliases : List (String × String)) (input : String) : List Herb :=
  (tokenize input).filterMap (fun t => (tokenCaptures t).map (mkHerb aliases t))

/-- Exact representation of the numeric values appearing as scores: the pair
`⟨q, r⟩` denotes the real number `q * √r`. Every score the engine produces is
either rational (`r = 1`) or the cosine value `dot / (√magInput * √magStandard)`,
which is `dot * √(1 / (magInput * magStandard))`. -/
structure Score where
  q : ℚ
  r : ℚ
deriving DecidableEq

/-- Score denoting the rational `x`. -/
def Score.ofRat (x : ℚ) : Score := ⟨x, 1⟩

/-- Multiplication of score values: `(q₁√r₁)·(q₂√r₂) = (q₁q₂)·√(r₁r₂)`. -/
def Score.mul (a b : Score) : Score := ⟨a.q * b.q, a.r * b.r⟩

/-- Real value denoted by a score. -/
noncomputable def Score.toReal (s : Score) : ℝ := (s.q : ℝ) * Real.sqrt (s.r : ℝ)

/-- Decides `q₁√r₁ < q₂√r₂` for non-negative radicands by sign analysis and
squaring; this is the comparison the engine performs on scores. -/
def Score.lt (a b : Score) : Bool :=
  if a.q < 0 then
    if 0 ≤ b.q then true else b.q ^ 2 * b.r < a.q ^ 2 * a.r
  else
    if b.q ≤ 0 then false else a.q ^ 2 * a.r < b.q ^ 2 * b.r

/-- Embedding of the `StandardFormula` interface (src/types.ts); the optional
TS fields `isAiGenerated`, `pinyin`, `category` keep their JS truthiness
(`none` behaves as `undefined`, i.e. false). -/
structure StandardFormula where
  id : String
  name : String
  source : String
  composition : List String
  standardDosage : Option DosageRec
  usage : String
  effect : String
  indications : String
  analysis : String
  isAiGenerated : Bool
  pinyin : Option String
  category : Option String
deriving DecidableEq

/-- The four values of `MatchResult['matchType']`. -/
inductive MatchType where
  | exact
  | variant
  | subset
  | ratioMismatch
deriving DecidableEq

/-- The optional `dosageAnalysis` payload of a `MatchResult`. -/
structure DosageAnalysis where
  similarity : Score
  details : String
deriving DecidableEq

/-- Embedding of the `MatchResult` interface (src/types.ts). -/
structure MatchResult where
  formula : StandardFormula
  score : Score
  matchType : MatchType
  missingHerbs : List String
  additionalHerbs : List Herb
  inputHerbs : List Herb
  dosageAnalysis : Option DosageAnalysis
  isCombined : Option Bool
  combinedWith : Option String
deriving DecidableEq

/-- Embedding of `calculateRatioSimilarity` (src/utils.ts:99-127). The filter
keeps the input entries whose name reads a truthy (present and nonzero) value
from the standard-dosage record; the vector loop is the fold over the zipped
vectors; the returned cosine `dot / (√magInput * √magStandard)` is the score
`⟨dot, 1/(magInput*magStandard)⟩`. -/
def calculateRatioSimilarity (inputHerbs : List Herb) (standardDosage : DosageRec) : Score :=
  let commonKeys := (inputHerbs.filter (fun h => truthyNum (standardDosage.lookup h.name))).map (·.name)
  if commonKeys.length < 2 then Score.ofRat 1
  else
    let inputVector := commonKeys.map (fun k =>
      ((inputHerbs.find? (fun h => h.name == k)).map (·.dosage)).getD 0)
    let standardVector := commonKeys.map (fun k => (standardDosage.lookup k).getD 0)
    let dotProduct := (inputVector.zip standardVector).foldl (fun acc p => acc + p.1 * p.2) 0
    let magInput := inputVector.foldl (fun acc x => acc + x * x) 0
    let magStandard := standardVector.foldl (fun acc x => acc + x * x) 0
    if magInput = 0 || magStandard = 0 then Score.ofRat 0
    else ⟨dotProduct, 1 / (magInput * magStandard)⟩

/-- The formula names present in the input (`composition.filter(name => inputNames.has(name))`). -/
def intersectionOf (inputHerbs : List Herb) (formula : StandardFormula) : List String :=
  formula.composition.filter (fun n => (inputHerbs.map (·.name)).contains n)

/-- The formula names absent from the input. -/
def missingOf (inputHerbs : List Herb) (formula : StandardFormula) : List String :=
  formula.composition.filter (fun n => !(inputHerbs.map (·.name)).contains n)

/-- The input entries whose name is not in the formula's composition. -/
def additionalOf (inputHerbs : List Herb) (formula : StandardFormula) : List Herb :=
  inputHerbs.filter (fun h => !formula.composition.contains h.name)

/-- The base score `recall * 0.6 + precision * 0.4` (src/utils.ts:143-152). -/
def baseScoreOf (inputHerbs : List Herb) (formula : StandardFormula) : ℚ :=
  let recallVal : ℚ := (intersectionOf inputHerbs formula).length / formula.composition.length
  let precisionVal : ℚ := (intersectionOf inputHerbs formula).length / inputHerbs.length
  recallVal * (6 / 10) + precisionVal * (4 / 10)

/-- The match-type assignment chain of src/utils.ts:166-200 before the dosage
check: `variant` by default, `exact` on set equality, `subset` when only
additional herbs exist. -/
def classifyBase (missing : List String) (additional : List Herb) : MatchType :=
  if missing = [] ∧ additional = [] then .exact
  else if missing = [] ∧ additional ≠ [] then .subset
  else .variant

/-- The dosage-ratio step of the exact branch (src/utils.ts:174-192): returns
the final match type, score, and `dosageAnalysis` of an exact ingredient
match. -/
def exactDosageStep (inputHerbs : List Herb) (formula : StandardFormula) :
    MatchType × Score × Option DosageAnalysis :=
  let hasDosage := inputHerbs.all (fun h => 0 < h.dosage)
  match formula.standardDosage with
  | some std =>
    if hasDosage then
      let ratioScore := calculateRatioSimilarity inputHerbs std
      if Score.lt ratioScore (Score.ofRat (85 / 100)) then
        (.ratioMismatch, (Score.ofRat 1).mul ratioScore,
          some ⟨ratioScore, "药味完全相同，但剂量比例与原方差异显著，可能为衍生方或类方。"⟩)
      else
        (.exact, Score.ofRat 1, some ⟨ratioScore, "剂量比例与原方高度符合。"⟩)
    else (.exact, Score.ofRat 1, none)
  | none => (.exact, Score.ofRat 1, none)

/-- State of `matchType`/`finalScore` after the classification chain of
src/utils.ts:166-200 and before the dosage-ratio check: `variant` keeps the
base score, `exact` forces the score to `1.0`. -/
def classifyStep (inputHerbs : List Herb) (formula : StandardFormula) : MatchType × ℚ :=
  let mt := classifyBase (missingOf inputHerbs formula) (additionalOf inputHerbs formula)
  (mt, if mt = .exact then 1 else baseScoreOf inputHerbs formula)

/-- Embedding of `compareFormulaWithInput` (src/utils.ts:132-211). -/
def compareFormulaWithInput (inputHerbs : List Herb) (formula : StandardFormula) :
    Option MatchResult :=
  let intersection := intersectionOf inputHerbs formula
  let missing := missingOf inputHerbs formula
  let additional := additionalOf inputHerbs formula
  if intersection.length = 0 then none
  else if 4 < inputHerbs.length ∧ intersection.length ≤ 1 ∧ ¬formula.isAiGenerated then none
  else
    let step :=
      if (classifyStep inputHerbs formula).1 = .exact then exactDosageStep inputHerbs formula
      else ((classifyStep inputHerbs formula).1,
            Score.ofRat (classifyStep inputHerbs formula).2, none)
    some
      { formula := formula
        score := step.2.1
        matchType := step.1
        missingHerbs := missing
        additionalHerbs := additional
        inputHerbs := inputHerbs
        dosageAnalysis := step.2.2
        isCombined := none
        combinedWith := none }

/-- Stable insertion of a result into a list sorted by score descending; an
element moves before exactly those earlier elements with strictly smaller
score, which is the order a stable sort with comparator
`(a, b) => b.score - a.score` produces. -/
def insertByScoreDesc (x : MatchResult) : List MatchResult → List MatchResult
  | [] => [x]
  | y :: ys => if Score.lt x.score y.score then y :: insertByScoreDesc x ys else x :: y :: ys

/-- Stable sort by score descending, modelling `results.sort((a, b) => b.score - a.score)`. -/
def sortByScoreDesc (l : List MatchResult) : List MatchResult :=
  l.foldr insertByScoreDesc []

/-- Embedding of `findMatches` (src/utils.ts:218-276), with the formula
database passed explicitly (the source defaults it to the global
`CLASSIC_FORMULAS`). -/
def findMatches (inputHerbs : List Herb) (database : List StandardFormula) : List MatchResult :=
  if inputHerbs.length = 0 then []
  else
    let results := database.filterMap (fun formula => compareFormulaWithInput inputHerbs formula)
    let sortedMatches := sortByScoreDesc results
    match sortedMatches with
    | [] => []
    | topMatch :: rest =>
      if 2 ≤ topMatch.additionalHerbs.length then
        let leftoverHerbs := topMatch.additionalHerbs
        let secondaryResults := database.filterMap (fun f =>
          if f.name = topMatch.formula.name then none
          else compareFormulaWithInput leftoverHerbs f)
        match sortByScoreDesc secondaryResults with
        | [] => topMatch :: rest
        | secondMatch :: _ =>
          let explainedBySecond := (secondMatch.formula.composition.filter
            (fun c => leftoverHerbs.any (fun lh => lh.name == c))).length
          if 2 ≤ explainedBySecond ∨ explainedBySecond = leftoverHerbs.length then
            { topMatch with isCombined := some true,
                            combinedWith := some secondMatch.formula.name } :: rest
          else topMatch :: rest
      else topMatch :: rest

/-- Match Ranker as worded by the spec's §4.6 / claim C1: detection applies
only to the single top-ranked result, is skipped when its `additionalHerbs`
has fewer than 2 entries, re-runs the Formula Matcher on the leftovers
against every database formula except the top result's own formula (matched
by name), sorts, and annotates the top result when the best secondary result
explains at least 2 leftovers or all of them. -/
def rankSpec (input : List Herb) (db : List StandardFormula) : List MatchResult :=
  if input = [] then []
  else
    match sortByScoreDesc (db.filterMap (compareFormulaWithInput input)) with
    | [] => []
    | top :: rest =>
      if top.additionalHerbs.length < 2 then top :: rest
      else
        match sortByScoreDesc ((db.filter (fun f => f.name ≠ top.formula.name)).filterMap
            (compareFormulaWithInput top.additionalHerbs)) with
        | [] => top :: rest
        | second :: _ =>
          let explained := (second.formula.composition.filter
            (fun c => (top.additionalHerbs.map (·.name)).contains c)).length
          if 2 ≤ explained ∨ explained = top.additionalHerbs.length then
            { top with isCombined := some true, combinedWith := some second.formula.name } :: rest
          else top :: rest

/-- Ratio Similarity Scorer as worded by claim C6: the common set is the herb
names present both in the input with nonzero input dosage and in the standard
map; the remainder is as in the source. -/
def ratioSimilarityClaim (inputHerbs : List Herb) (standardDosage : DosageRec) : Score :=
  let commonKeys := (inputHerbs.filter (fun h =>
    h.dosage != 0 && (standardDosage.lookup h.name).isSome)).map (·.name)
  if commonKeys.length < 2 then Score.ofRat 1
  else
    let inputVector := commonKeys.map (fun k =>
      ((inputHerbs.find? (fun h => h.name == k)).map (·.dosage)).getD 0)
    let standardVector := commonKeys.map (fun k => (standardDosage.lookup k).getD 0)
    let dotProduct := (inputVector.zip standardVector).foldl (fun acc p => acc + p.1 * p.2) 0
    let magInput := inputVector.foldl (fun acc x => acc + x * x) 0
    let magStandard := standardVector.foldl (fun acc x => acc + x * x) 0
    if magInput = 0 || magStandard = 0 then Score.ofRat 0
    else ⟨dotProduct, 1 / (magInput * magStandard)⟩

/-- Sum of pairwise products of two parallel vectors. -/
def dotSum (xs ys : List ℚ) : ℚ := ((xs.zip ys).map (fun p => p.1 * p.2)).sum

/-- Sum of squares of a vector. -/
def sqSum (xs : List ℚ) : ℚ := (xs.map (fun x => x * x)).sum

/-- Ratio Similarity Scorer as amended for claim C6: the common keys are the
names of the input entries whose name reads a nonzero value from the standard
map (the input dosage is not examined); over those keys the function returns
the cosine of the two dosage vectors, with 0 on a zero magnitude and 1 when
fewer than 2 keys exist. -/
def ratioSimilarityAmended (inputHerbs : List Herb) (standardDosage : DosageRec) : Score :=
  let commonKeys := (inputHerbs.filter
    (fun h => truthyNum (standardDosage.lookup h.name))).map (·.name)
  if commonKeys.length < 2 then Score.ofRat 1
  else
    let inputVector := commonKeys.map (fun k =>
      ((inputHerbs.find? (fun h => h.name == k)).map (·.dosage)).getD 0)
    let standardVector := commonKeys.map (fun k => (standardDosage.lookup k).getD 0)
    if sqSum inputVector = 0 || sqSum standardVector = 0 then Score.ofRat 0
    else ⟨dotSum inputVector standardVector, 1 / (sqSum inputVector * sqSum standardVector)⟩

/-- Dosage-string decoder as worded by claim C7: split on the parser's full
delimiter class (which includes the sentence-final `。`), then accept chunks
of shape CJK name, optional `:` or `=`, decimal amount. -/
def parseDosageStringClaim (s : String) : DosageRec :=
  if s.data.isEmpty then []
  else
    (splitOnRuns isParserDelim s.data).foldl
      (fun result part =>
        match dosageChunk part with
        | some (name, amount) => recordSet result name amount
        | none => result)
      []

/-- Dosage-string decoder as amended for claim C7: split on the parser's
delimiter class minus sentence-final punctuation, then accept chunks as
claimed. -/
def parseDosageStringAmended (s : String) : DosageRec :=
  if s.data.isEmpty then []
  else
    (splitOnRuns (fun c => isParserDelim c && !(c == '。')) s.data).foldl
      (fun result part =>
        match dosageChunk part with
        | some (name, amount) => recordSet result name amount
        | none => result)
      []

/-- Claim C10 as stated, per token: whenever the parser regex matches a
token, the entry built from the captures has non-negative dosage with dosage
0 exactly when no number group was captured, a non-empty unit defaulting to
"g" when no unit group was captured, and `originalText` equal to the token. -/
def tokenEntryClaim (aliases : List (String × String)) (t : List Char) : Prop :=
  ∀ caps, tokenCaptures t = some caps →
    0 ≤ (mkHerb aliases t caps).dosage ∧
    (mkHerb aliases t caps).unit ≠ "" ∧
    (mkHerb aliases t caps).originalText = String.mk t ∧
    ((mkHerb aliases t caps).dosage = 0 ↔ caps.num = none) ∧
    (caps.unitStr = none → (mkHerb aliases t caps).unit = "g")

/-- Fixture formula used by concrete witnesses and counterexamples. -/
def wFormula (comp : List String) (std : Option DosageRec) : StandardFormula :=
  { id := "w", name := "配方", source := "书", composition := comp, standardDosage := std,
    usage := "", effect := "", indications := "", analysis := "", isAiGenerated := false,
    pinyin := none, category := none }

/-- Fixture herb entry used by concrete witnesses and counterexamples. -/
def wHerb (n : String) (d : ℚ) : Herb := { name := n, dosage := d, unit := "g", originalText := n }

theorem filterMap_name_guard (db : List StandardFormula) (nm : String)
    (g : StandardFormula → Option MatchResult) :
    db.filterMap (fun f => if f.name = nm then none else g f) =
      (db.filter (fun f => f.name ≠ nm)).filterMap g := by
  induction db with
  | nil => rfl
  | cons f fs ih =>
    by_cases h : f.name = nm <;>
      simp [List.filterMap_cons, List.filter_cons, h, ih]

theorem any_name_eq_contains (l : List Herb) (c : String) :
    (l.any (fun lh => lh.name == c)) = ((l.map (·.name)).contains c) := by
  induction l with
  | nil => rfl
  | cons x xs ih =>
    show (x.name == c || xs.any fun lh => lh.name == c) = ((x.name :: xs.map (·.name)).contains c)
    rw [ih]
    show _ = (c == x.name || (xs.map (·.name)).contains c)
    by_cases h : x.name = c
    · simp [h]
    · have e1 : (x.name == c) = false := beq_eq_false_iff_ne.mpr h
      have e2 : (c == x.name) = false := beq_eq_false_iff_ne.mpr (fun hc => h hc.symm)
      rw [e1, e2]

/-- Claim C5: the Formula Matcher returns `null` exactly when the ingredient
intersection is empty, or the input has more than 4 herbs while the
intersection has at most 1 herb and the formula is not AI-sourced; in every
other case it returns a result. -/
theorem compare_none_iff (inputHerbs : List Herb) (formula : StandardFormula) :
    compareFormulaWithInput inputHerbs formula = none ↔
      intersectionOf inputHerbs formula = [] ∨
        (4 < inputHerbs.length ∧ (intersectionOf inputHerbs formula).length ≤ 1 ∧
          formula.isAiGenerated = false) := by
  by_cases h1 : (intersectionOf inputHerbs formula).length = 0
  · simp only [compareFormulaWithInput, h1, if_true, true_iff]
    exact Or.inl (List.length_eq_zero.mp h1)
  · by_cases h2 : 4 < inputHerbs.length ∧ (intersectionOf inputHerbs formula).length ≤ 1 ∧
        ¬formula.isAiGenerated
    · have hn : compareFormulaWithInput inputHerbs formula = none := by
        simp only [compareFormulaWithInput, if_neg h1, if_pos h2]
      rw [hn]
      simp only [true_iff]
      refine Or.inr ⟨h2.1, h2.2.1, ?_⟩
      simpa using h2.2.2
    · have hr : ¬(intersectionOf inputHerbs formula = [] ∨
          (4 < inputHerbs.length ∧ (intersectionOf inputHerbs formula).length ≤ 1 ∧
            formula.isAiGenerated = false)) := by
        rintro (he | ⟨hl, hi, hai⟩)
        · exact h1 (by simp [he])
        · exact h2 ⟨hl, hi, by simp [hai]⟩
      simp only [compareFormulaWithInput, if_neg h1, if_neg h2, hr, iff_false]
      exact fun hc => Option.noConfusion hc

/-- Claim C2: whenever the Formula Matcher returns a result, the
classification entering the dosage-ratio check is `exact` with the score
forced to `1.0` when both `missing` and `additional` are empty, `subset` when
`missing` is empty and `additional` is not, and `variant` in every other
case. -/
theorem classifyStep_cases (inputHerbs : List Herb) (formula : StandardFormula)
    (_hsome : compareFormulaWithInput inputHerbs formula ≠ none) :
    (missingOf inputHerbs formula = [] ∧ additionalOf inputHerbs formula = [] →
        classifyStep inputHerbs formula = (.exact, 1))
  ∧ (missingOf inputHerbs formula = [] ∧ additionalOf inputHerbs formula ≠ [] →
        (classifyStep inputHerbs formula).1 = .subset)
  ∧ (missingOf inputHerbs formula ≠ [] →
        (classifyStep inputHerbs formula).1 = .variant) := by
  refine ⟨fun h => ?_, fun h => ?_, fun h => ?_⟩
  · simp [classifyStep, classifyBase, h.1, h.2]
  · simp [classifyStep, classifyBase, h.1, h.2]
  · simp [classifyStep, classifyBase, h]

/-- Witness for claim C2 at a concrete one-herb exact match. -/
theorem classifyStep_cases_witness :
    compareFormulaWithInput [wHerb "人参" 1] (wFormula ["人参"] none) ≠ none ∧
    ((missingOf [wHerb "人参" 1] (wFormula ["人参"] none) = [] ∧
        additionalOf [wHerb "人参" 1] (wFormula ["人参"] none) = [] →
        classifyStep [wHerb "人参" 1] (wFormula ["人参"] none) = (.exact, 1))
    ∧ (missingOf [wHerb "人参" 1] (wFormula ["人参"] none) = [] ∧
        additionalOf [wHerb "人参" 1] (wFormula ["人参"] none) ≠ [] →
        (classifyStep [wHerb "人参" 1] (wFormula ["人参"] none)).1 = .subset)
    ∧ (missingOf [wHerb "人参" 1] (wFormula ["人参"] none) ≠ [] →
        (classifyStep [wHerb "人参" 1] (wFormula ["人参"] none)).1 = .variant)) :=
  ⟨by decide, classifyStep_cases _ _ (by decide)⟩

/-- Claim C9: the matching pipeline is built from total functions; on empty
inputs each stage returns its neutral value, and ranking an empty herb list
returns the empty sequence for every database. -/
theorem pipeline_total_on_empty :
    (∀ database : List StandardFormula, findMatches [] database = [])
  ∧ (∀ input : List Herb, findMatches input [] = [])
  ∧ (∀ aliases : List (String × String), parseFormulaInput aliases "" = [])
  ∧ parseDosageString "" = []
  ∧ formatDosageToString none = ""
  ∧ formatDosageToString (some []) = ""
  ∧ (∀ formula : StandardFormula, compareFormulaWithInput [] formula = none) := by
  refine ⟨fun db => by simp [findMatches], fun input => ?_, fun aliases => rfl, rfl, rfl, rfl,
    fun formula => ?_⟩
  · by_cases h : input.length = 0 <;> simp [findMatches, h, sortByScoreDesc]
  · have hint : intersectionOf [] formula = [] := by
      simp [intersectionOf]
    simp [compareFormulaWithInput, hint]

/-- Claim C1: the combined-formula detection of `findMatches` behaves exactly
as the spec words it — it inspects only the single top-ranked result, skips
when that result has fewer than 2 additional herbs, re-runs the matcher on
the leftovers against every formula other than the top one (matched by
name), and annotates the top result (leaving its score unchanged, without
recursion) when the best secondary result explains at least 2 leftovers or
all of them. -/
theorem findMatches_eq_rankSpec (input : List Herb) (db : List StandardFormula) :
    findMatches input db = rankSpec input db := by
  by_cases hin : input = []
  · simp [findMatches, rankSpec, hin]
  · have hlen : ¬(input.length = 0) := by simpa [List.length_eq_zero] using hin
    rw [findMatches, rankSpec, if_neg hlen, if_neg hin]
    cases hs : sortByScoreDesc (db.filterMap (compareFormulaWithInput input)) with
    | nil => simp only [hs]
    | cons top rest =>
      simp only [hs]
      by_cases h2 : 2 ≤ top.additionalHerbs.length
      · have h2' : ¬(top.additionalHerbs.length < 2) := by omega
        rw [if_pos h2, if_neg h2', filterMap_name_guard]
        cases hsec : sortByScoreDesc ((db.filter
            (fun f => f.name ≠ top.formula.name)).filterMap
            (compareFormulaWithInput top.additionalHerbs)) with
        | nil => simp only [hsec]
        | cons second others =>
          simp only [hsec]
          have hfun : (fun c => top.additionalHerbs.any (fun lh => lh.name == c)) =
              (fun c => (top.additionalHerbs.map (·.name)).contains c) := by
            funext c
            exact any_name_eq_contains top.additionalHerbs c
          rw [hfun]
      · have h2' : top.additionalHerbs.length < 2 := by omega
        rw [if_neg h2, if_pos h2']

theorem foldl_add_comp {α : Type} (f : α → ℚ) (l : List α) (a : ℚ) :
    l.foldl (fun acc x => acc + f x) a = a + (l.map f).sum := by
  induction l generalizing a with
  | nil => simp
  | cons x xs ih => simp [ih, add_assoc]

/-- Counterexample to claim C6: on input entries with dosage 0 whose names
carry nonzero standard values, the claimed reading finds no common name and
returns 1, while the code keeps both names and returns 0 through the
zero-magnitude guard. -/
theorem ratioSimilarity_claim_cex :
    calculateRatioSimilarity [wHerb "人参" 0, wHerb "黄芪" 0] [("人参", 1), ("黄芪", 2)] =
      Score.ofRat 0 ∧
    ratioSimilarityClaim [wHerb "人参" 0, wHerb "黄芪" 0] [("人参", 1), ("黄芪", 2)] =
      Score.ofRat 1 ∧
    Score.ofRat 0 ≠ Score.ofRat 1 := by
  have e1 : (("黄芪" : String) == "人参") = false := by decide
  have e2 : (("人参" : String) == "人参") = true := by decide
  have e3 : (("黄芪" : String) == "黄芪") = true := by decide
  have e4 : (("人参" : String) == "黄芪") = false := by decide
  refine ⟨?_, ?_, ?_⟩
  · norm_num [calculateRatioSimilarity, truthyNum, wHerb, Score.ofRat, List.lookup,
      List.filter_cons, List.find?, bne_iff_ne, e1, e2, e3, e4]
  · norm_num [ratioSimilarityClaim, truthyNum, wHerb, Score.ofRat, List.lookup,
      List.filter_cons, List.find?, bne_iff_ne, e1, e2, e3, e4]
  · simp [Score.ofRat]

/-- Claim C6 as amended: the common keys of the ratio scorer are the names of
input entries whose standard-map value is nonzero (the input dosage plays no
role in the filter); with fewer than 2 such keys the result is 1, otherwise
it is the cosine of the two parallel dosage vectors, 0 when either has zero
magnitude. -/
theorem calculateRatioSimilarity_eq_amended (inputHerbs : List Herb)
    (standardDosage : DosageRec) :
    calculateRatioSimilarity inputHerbs standardDosage =
      ratioSimilarityAmended inputHerbs standardDosage := by
  unfold calculateRatioSimilarity ratioSimilarityAmended
  simp only [dotSum, sqSum, foldl_add_comp (fun p : ℚ × ℚ => p.1 * p.2),
    foldl_add_comp (fun x : ℚ => x * x), zero_add]

/-- Counterexample to claim C7: the decoder does not split on the
sentence-final `。` although the parser's tokenization does; a `。`-separated
pair of entries therefore decodes to nothing, while splitting on the parser's
delimiter class would decode both entries. -/
theorem parseDosageString_claim_cex :
    parseDosageString "甘草:1。人参:2" = [] ∧
    parseDosageStringClaim "甘草:1。人参:2" = [("甘草", 1), ("人参", 2)] := by
  refine ⟨by decide, by decide⟩

theorem char_eq_iff_toNat (c d : Char) : c = d ↔ c.toNat = d.toNat := by
  constructor
  · intro h
    rw [h]
  · intro h
    exact Char.ext (UInt32.ext h)

theorem decoderDelim_eq (c : Char) :
    isDecoderDelim c = (isParserDelim c && !(c == '。')) := by
  rw [Bool.eq_iff_iff]
  simp only [isDecoderDelim, isParserDelim, isParserPunct, isJsWhitespace, Bool.or_eq_true,
    Bool.and_eq_true, Bool.not_eq_true', beq_eq_false_iff_ne, ne_eq, char_eq_iff_toNat,
    decide_eq_true_eq, show ('。').toNat = 0x3002 from rfl]
  omega

/-- Claim C7 as amended: the decoder splits on exactly the parser's delimiter
class with sentence-final punctuation removed (commas, the ideographic comma
and whitespace, but not `。`), and then accepts precisely the chunks made of
a CJK name, an optional `:` or `=`, and a decimal amount. -/
theorem parseDosageString_eq_amended (s : String) :
    parseDosageString s = parseDosageStringAmended s := by
  unfold parseDosageString parseDosageStringAmended
  rw [show isDecoderDelim = (fun c => isParserDelim c && !(c == '。')) from
    funext decoderDelim_eq]

theorem parseDecimal_nonneg (l : List Char) : 0 ≤ parseDecimal l := by
  simp only [parseDecimal]
  split
  · positivity
  · positivity

theorem if_isEmpty_some_ne_nil (x u : List Char)
    (h : (if x.isEmpty then none else some x) = some u) : u ≠ [] := by
  by_cases he : x.isEmpty
  · rw [if_pos he] at h
    exact Option.noConfusion h
  · rw [if_neg he] at h
    have hxu := Option.some.inj h
    subst hxu
    simpa using he

theorem tokenCaptures_unit_ne_nil (t : List Char) (caps : TokenCaptures)
    (h : tokenCaptures t = some caps) :
    ∀ u, caps.unitStr = some u → u ≠ [] := by
  simp only [tokenCaptures] at h
  split_ifs at h
  all_goals
    have hc := Option.some.inj h
    subst hc
    intro u' hu'
    first
    | exact Option.noConfusion hu'
    | (have hx := Option.some.inj hu'
       subst hx
       simp_all [List.isEmpty_iff])

/-- Counterexample to claim C10: the token `麻黄0` captures the number `0`
(so a number segment is present) yet the produced entry's dosage is `0`, so
dosage 0 is not equivalent to the absence of a captured number. -/
theorem tokenEntryClaim_cex : ¬ (∀ t ∈ tokenize "麻黄0", tokenEntryClaim [] t) := by
  intro hcl
  have hc : tokenCaptures ['麻', '黄', '0'] = some ⟨['麻', '黄'], some ['0'], none⟩ := by decide
  have hmem : ['麻', '黄', '0'] ∈ tokenize "麻黄0" := by decide
  obtain ⟨-, -, -, hiff, -⟩ := hcl _ hmem _ hc
  have hd : (mkHerb [] ['麻', '黄', '0'] ⟨['麻', '黄'], some ['0'], none⟩).dosage = 0 := by
    show parseDecimal ['0'] = 0
    have h0 : List.takeWhile isDigitCh ['0'] = ['0'] := by decide
    simp [parseDecimal, digitsVal, h0]
  exact Option.noConfusion (hiff.mp hd)

/-- Claim C10 as amended: every entry produced by the parser stems from a
token of the input; it carries a non-negative dosage equal to the parsed
value of the captured number segment (0 when no number was captured — but a
captured `0` also yields dosage 0), a non-empty unit equal to "g" whenever no
unit segment was captured, and an `originalText` equal to the token,
character for character. -/
theorem parseFormulaInput_entry_invariants (aliases : List (String × String)) (input : String) :
    ∀ h ∈ parseFormulaInput aliases input,
      0 ≤ h.dosage ∧ h.unit ≠ "" ∧
      ∃ t ∈ tokenize input, ∃ caps, tokenCaptures t = some caps ∧
        h = mkHerb aliases t caps ∧
        h.originalText = String.mk t ∧
        h.dosage = (match caps.num with | some ds => parseDecimal ds | none => (0 : ℚ)) ∧
        (caps.num = none → h.dosage = 0) ∧
        (caps.unitStr = none → h.unit = "g") := by
  intro h hmem
  rw [parseFormulaInput] at hmem
  obtain ⟨t, ht, hfm⟩ := List.mem_filterMap.mp hmem
  obtain ⟨caps, hcaps, hh⟩ : ∃ caps, tokenCaptures t = some caps ∧ mkHerb aliases t caps = h := by
    cases hc : tokenCaptures t with
    | none => rw [hc] at hfm; exact absurd hfm (by simp)
    | some c => rw [hc] at hfm; exact ⟨c, rfl, Option.some.inj hfm⟩
  subst hh
  refine ⟨?_, ?_, t, ht, caps, hcaps, rfl, rfl, ?_, ?_, ?_⟩
  · cases hn : caps.num with
    | none => simp [mkHerb, hn]
    | some ds =>
      simp only [mkHerb, hn]
      exact parseDecimal_nonneg ds
  · cases hu : caps.unitStr with
    | none =>
      simp only [mkHerb, hu]
      decide
    | some u =>
      simp only [mkHerb, hu]
      have hne := tokenCaptures_unit_ne_nil t caps hcaps u hu
      intro hcon
      exact hne (by simpa using congrArg String.data hcon)
  · rfl
  · intro hn
    simp [mkHerb, hn]
  · intro hu
    simp [mkHerb, hu]

theorem Score.toReal_ofRat (x : ℚ) : (Score.ofRat x).toReal = (x : ℝ) := by
  simp [Score.toReal, Score.ofRat]

theorem Score.toReal_one_mul (s : Score) : ((Score.ofRat 1).mul s).toReal = s.toReal := by
  simp [Score.toReal, Score.ofRat, Score.mul]

/-- The comparison the engine performs on scores agrees with the real-number
order of the denoted values, for positive radicands. -/
theorem Score.lt_iff_toReal (a b : Score) (ha : 0 < a.r) (hb : 0 < b.r) :
    (Score.lt a b = true) ↔ a.toReal < b.toReal := by
  have sa : (0:ℝ) < Real.sqrt (a.r:ℝ) := Real.sqrt_pos.mpr (by exact_mod_cast ha)
  have sb : (0:ℝ) < Real.sqrt (b.r:ℝ) := Real.sqrt_pos.mpr (by exact_mod_cast hb)
  have ea : ((a.q:ℝ) * Real.sqrt (a.r:ℝ))^2 = (a.q:ℝ)^2 * (a.r:ℝ) := by
    rw [mul_pow, Real.sq_sqrt (by positivity)]
  have eb : ((b.q:ℝ) * Real.sqrt (b.r:ℝ))^2 = (b.q:ℝ)^2 * (b.r:ℝ) := by
    rw [mul_pow, Real.sq_sqrt (by positivity)]
  unfold Score.lt Score.toReal
  split_ifs with h1 h2 h3
  · refine iff_of_true rfl ?_
    have hx : (a.q:ℝ) * Real.sqrt (a.r:ℝ) < 0 :=
      mul_neg_of_neg_of_pos (by exact_mod_cast h1) sa
    have hy : (0:ℝ) ≤ (b.q:ℝ) * Real.sqrt (b.r:ℝ) := mul_nonneg (by exact_mod_cast h2) sb.le
    linarith
  · rw [decide_eq_true_eq]
    have hx : (a.q:ℝ) * Real.sqrt (a.r:ℝ) < 0 :=
      mul_neg_of_neg_of_pos (by exact_mod_cast h1) sa
    have hy : (b.q:ℝ) * Real.sqrt (b.r:ℝ) < 0 :=
      mul_neg_of_neg_of_pos (by exact_mod_cast (not_le.mp h2)) sb
    constructor
    · intro hlt
      have hlt' : (b.q:ℝ)^2 * (b.r:ℝ) < (a.q:ℝ)^2 * (a.r:ℝ) := by exact_mod_cast hlt
      nlinarith [ea, eb]
    · intro hlt
      have hr : (b.q:ℝ)^2 * (b.r:ℝ) < (a.q:ℝ)^2 * (a.r:ℝ) := by nlinarith [ea, eb]
      exact_mod_cast hr
  · refine iff_of_false (by simp) (not_lt.mpr ?_)
    have hy : (b.q:ℝ) * Real.sqrt (b.r:ℝ) ≤ 0 :=
      mul_nonpos_of_nonpos_of_nonneg (by exact_mod_cast h3) sb.le
    have hx : (0:ℝ) ≤ (a.q:ℝ) * Real.sqrt (a.r:ℝ) :=
      mul_nonneg (by exact_mod_cast (not_lt.mp h1)) sa.le
    linarith
  · rw [decide_eq_true_eq]
    have hx : (0:ℝ) ≤ (a.q:ℝ) * Real.sqrt (a.r:ℝ) :=
      mul_nonneg (by exact_mod_cast (not_lt.mp h1)) sa.le
    have hy : (0:ℝ) < (b.q:ℝ) * Real.sqrt (b.r:ℝ) :=
      mul_pos (by exact_mod_cast (not_le.mp h3)) sb
    constructor
    · intro hlt
      have hlt' : (a.q:ℝ)^2 * (a.r:ℝ) < (b.q:ℝ)^2 * (b.r:ℝ) := by exact_mod_cast hlt
      nlinarith [ea, eb]
    · intro hlt
      have hr : (a.q:ℝ)^2 * (a.r:ℝ) < (b.q:ℝ)^2 * (b.r:ℝ) := by nlinarith [ea, eb]
      exact_mod_cast hr

theorem foldl_sq_nonneg (l : List ℚ) : 0 ≤ l.foldl (fun acc x => acc + x * x) 0 := by
  rw [foldl_add_comp (fun x : ℚ => x * x)]
  have hs : 0 ≤ (l.map (fun x => x * x)).sum := by
    apply List.sum_nonneg
    intro y hy
    obtain ⟨x, -, rfl⟩ := List.mem_map.mp hy
    exact mul_self_nonneg x
  linarith

/-- Every score the ratio scorer produces has a positive radicand. -/
theorem ratioSimilarity_r_pos (i : List Herb) (std : DosageRec) :
    0 < (calculateRatioSimilarity i std).r := by
  simp only [calculateRatioSimilarity]
  split_ifs with h1 h2
  · norm_num [Score.ofRat]
  · norm_num [Score.ofRat]
  · simp only [Bool.or_eq_true, decide_eq_true_eq, not_or] at h2
    refine one_div_pos.mpr (mul_pos ?_ ?_)
    · exact lt_of_le_of_ne (foldl_sq_nonneg _) (Ne.symm h2.1)
    · exact lt_of_le_of_ne (foldl_sq_nonneg _) (Ne.symm h2.2)

theorem compare_some_inv (inputHerbs : List Herb) (formula : StandardFormula)
    (r : MatchResult) (hr : compareFormulaWithInput inputHerbs formula = some r) :
    r = { formula := formula
          score := (if (classifyStep inputHerbs formula).1 = .exact
                    then exactDosageStep inputHerbs formula
                    else ((classifyStep inputHerbs formula).1,
                          Score.ofRat (classifyStep inputHerbs formula).2, none)).2.1
          matchType := (if (classifyStep inputHerbs formula).1 = .exact
                        then exactDosageStep inputHerbs formula
                        else ((classifyStep inputHerbs formula).1,
                              Score.ofRat (classifyStep inputHerbs formula).2, none)).1
          missingHerbs := missingOf inputHerbs formula
          additionalHerbs := additionalOf inputHerbs formula
          inputHerbs := inputHerbs
          dosageAnalysis := (if (classifyStep inputHerbs formula).1 = .exact
                             then exactDosageStep inputHerbs formula
                             else ((classifyStep inputHerbs formula).1,
                                   Score.ofRat (classifyStep inputHerbs formula).2, none)).2.2
          isCombined := none
          combinedWith := none } := by
  simp only [compareFormulaWithInput] at hr
  by_cases h1 : (intersectionOf inputHerbs formula).length = 0
  · rw [if_pos h1] at hr
    exact Option.noConfusion hr
  · rw [if_neg h1] at hr
    by_cases h2 : 4 < inputHerbs.length ∧ (intersectionOf inputHerbs formula).length ≤ 1 ∧
        ¬formula.isAiGenerated
    · rw [if_pos h2] at hr
      exact Option.noConfusion hr
    · rw [if_neg h2] at hr
      exact (Option.some.inj hr).symm

/-- Claim C3: the dosage-ratio check runs only in the exact branch; with full
dosage data and a standard dosage present, a cosine below 0.85 turns the
result into `ratio-mismatch` with the forced 1.0 score multiplied by the
cosine and a deviation note attached, while a cosine of at least 0.85 keeps
`exact` with score 1.0 and a conformity note; with insufficient dosage data
the result stays `exact` with score 1.0 and no `dosageAnalysis`. -/
theorem compare_dosage_check (inputHerbs : List Herb) (formula : StandardFormula)
    (r : MatchResult) (hr : compareFormulaWithInput inputHerbs formula = some r) :
    (missingOf inputHerbs formula = [] ∧ additionalOf inputHerbs formula = [] →
      (∀ std, formula.standardDosage = some std →
        inputHerbs.all (fun h => 0 < h.dosage) = true →
        ((calculateRatioSimilarity inputHerbs std).toReal < 85/100 →
            r.matchType = .ratioMismatch ∧
            r.score = (Score.ofRat 1).mul (calculateRatioSimilarity inputHerbs std) ∧
            r.dosageAnalysis = some ⟨calculateRatioSimilarity inputHerbs std,
              "药味完全相同，但剂量比例与原方差异显著，可能为衍生方或类方。"⟩) ∧
        (85/100 ≤ (calculateRatioSimilarity inputHerbs std).toReal →
            r.matchType = .exact ∧ r.score = Score.ofRat 1 ∧
            r.dosageAnalysis = some ⟨calculateRatioSimilarity inputHerbs std,
              "剂量比例与原方高度符合。"⟩)) ∧
      (formula.standardDosage = none ∨ inputHerbs.all (fun h => 0 < h.dosage) = false →
        r.matchType = .exact ∧ r.score = Score.ofRat 1 ∧ r.dosageAnalysis = none))
  ∧ (¬(missingOf inputHerbs formula = [] ∧ additionalOf inputHerbs formula = []) →
      r.dosageAnalysis = none ∧ r.matchType ≠ .ratioMismatch) := by
  have hinv := compare_some_inv inputHerbs formula r hr
  subst hinv
  by_cases hex : missingOf inputHerbs formula = [] ∧ additionalOf inputHerbs formula = []
  · have hcb : (classifyStep inputHerbs formula).1 = .exact := by
      simp [classifyStep, classifyBase, hex.1, hex.2]
    refine ⟨fun _ => ⟨fun std hstd hall => ?_, fun hins => ?_⟩, fun hc => absurd hex hc⟩
    · have hltiff := Score.lt_iff_toReal (calculateRatioSimilarity inputHerbs std)
        (Score.ofRat (85/100)) (ratioSimilarity_r_pos inputHerbs std)
        (by norm_num [Score.ofRat])
      rw [Score.toReal_ofRat] at hltiff
      have hcast : (((85:ℚ)/100 : ℚ) : ℝ) = 85/100 := by norm_num
      rw [hcast] at hltiff
      constructor
      · intro hlt
        have hb : Score.lt (calculateRatioSimilarity inputHerbs std)
            (Score.ofRat (85/100)) = true := hltiff.mpr hlt
        simp [hcb, exactDosageStep, hstd, hall, hb]
      · intro hge
        have hb : ¬(Score.lt (calculateRatioSimilarity inputHerbs std)
            (Score.ofRat (85/100)) = true) := by
          rw [hltiff]
          exact not_lt.mpr hge
        simp [hcb, exactDosageStep, hstd, hall, hb]
    · rcases hins with hnone | hfalse
      · simp [hcb, exactDosageStep, hnone]
      · cases hsd : formula.standardDosage with
        | none => simp [hcb, exactDosageStep, hsd]
        | some std => simp [hcb, exactDosageStep, hsd, hfalse]
  · have hcb : (classifyStep inputHerbs formula).1 ≠ .exact ∧
        (classifyStep inputHerbs formula).1 ≠ .ratioMismatch := by
      by_cases hmm : missingOf inputHerbs formula = []
      · have hadd : additionalOf inputHerbs formula ≠ [] := fun h => hex ⟨hmm, h⟩
        refine ⟨?_, ?_⟩ <;> simp [classifyStep, classifyBase, hmm, hadd]
      · refine ⟨?_, ?_⟩ <;> simp [classifyStep, classifyBase, hmm]
    refine ⟨fun hc => absurd hc hex, fun _ => ⟨?_, ?_⟩⟩
    · simp [if_neg hcb.1]
    · simp only [if_neg hcb.1]
      exact hcb.2

/-- Witness for claim C3 at a one-herb exact match with no standard dosage. -/
theorem compare_dosage_check_witness :
    compareFormulaWithInput [wHerb "人参" 1] (wFormula ["人参"] none) =
      some { formula := wFormula ["人参"] none, score := Score.ofRat 1, matchType := .exact,
             missingHerbs := [], additionalHerbs := [], inputHerbs := [wHerb "人参" 1],
             dosageAnalysis := none, isCombined := none, combinedWith := none } ∧
    ((missingOf [wHerb "人参" 1] (wFormula ["人参"] none) = [] ∧
        additionalOf [wHerb "人参" 1] (wFormula ["人参"] none) = [] →
      (∀ std, (wFormula ["人参"] none).standardDosage = some std →
        ([wHerb "人参" 1].all (fun h => 0 < h.dosage)) = true →
        ((calculateRatioSimilarity [wHerb "人参" 1] std).toReal < 85/100 →
            ({ formula := wFormula ["人参"] none, score := Score.ofRat 1, matchType := .exact,
               missingHerbs := [], additionalHerbs := [], inputHerbs := [wHerb "人参" 1],
               dosageAnalysis := none, isCombined := none,
               combinedWith := none } : MatchResult).matchType = .ratioMismatch ∧
            ({ formula := wFormula ["人参"] none, score := Score.ofRat 1, matchType := .exact,
               missingHerbs := [], additionalHerbs := [], inputHerbs := [wHerb "人参" 1],
               dosageAnalysis := none, isCombined := none,
               combinedWith := none } : MatchResult).score =
              (Score.ofRat 1).mul (calculateRatioSimilarity [wHerb "人参" 1] std) ∧
            ({ formula := wFormula ["人参"] none, score := Score.ofRat 1, matchType := .exact,
               missingHerbs := [], additionalHerbs := [], inputHerbs := [wHerb "人参" 1],
               dosageAnalysis := none, isCombined := none,
               combinedWith := none } : MatchResult).dosageAnalysis =
              some ⟨calculateRatioSimilarity [wHerb "人参" 1] std,
                "药味完全相同，但剂量比例与原方差异显著，可能为衍生方或类方。"⟩) ∧
        (85/100 ≤ (calculateRatioSimilarity [wHerb "人参" 1] std).toReal →
            ({ formula := wFormula ["人参"] none, score := Score.ofRat 1, matchType := .exact,
               missingHerbs := [], additionalHerbs := [], inputHerbs := [wHerb "人参" 1],
               dosageAnalysis := none, isCombined := none,
               combinedWith := none } : MatchResult).matchType = .exact ∧
            ({ formula := wFormula ["人参"] none, score := Score.ofRat 1, matchType := .exact,
               missingHerbs := [], additionalHerbs := [], inputHerbs := [wHerb "人参" 1],
               dosageAnalysis := none, isCombined := none,
               combinedWith := none } : MatchResult).score = Score.ofRat 1 ∧
            ({ formula := wFormula ["人参"] none, score := Score.ofRat 1, matchType := .exact,
               missingHerbs := [], additionalHerbs := [], inputHerbs := [wHerb "人参" 1],
               dosageAnalysis := none, isCombined := none,
               combinedWith := none } : MatchResult).dosageAnalysis =
              some ⟨calculateRatioSimilarity [wHerb "人参" 1] std, "剂量比例与原方高度符合。"⟩)) ∧
      ((wFormula ["人参"] none).standardDosage = none ∨
          ([wHerb "人参" 1].all (fun h => 0 < h.dosage)) = false →
        ({ formula := wFormula ["人参"] none, score := Score.ofRat 1, matchType := .exact,
           missingHerbs := [], additionalHerbs := [], inputHerbs := [wHerb "人参" 1],
           dosageAnalysis := none, isCombined := none,
           combinedWith := none } : MatchResult).matchType = .exact ∧
        ({ formula := wFormula ["人参"] none, score := Score.ofRat 1, matchType := .exact,
           missingHerbs := [], additionalHerbs := [], inputHerbs := [wHerb "人参" 1],
           dosageAnalysis := none, isCombined := none,
           combinedWith := none } : MatchResult).score = Score.ofRat 1 ∧
        ({ formula := wFormula ["人参"] none, score := Score.ofRat 1, matchType := .exact,
           missingHerbs := [], additionalHerbs := [], inputHerbs := [wHerb "人参" 1],
           dosageAnalysis := none, isCombined := none,
           combinedWith := none } : MatchResult).dosageAnalysis = none))
    ∧ (¬(missingOf [wHerb "人参" 1] (wFormula ["人参"] none) = [] ∧
          additionalOf [wHerb "人参" 1] (wFormula ["人参"] none) = []) →
        ({ formula := wFormula ["人参"] none, score := Score.ofRat 1, matchType := .exact,
           missingHerbs := [], additionalHerbs := [], inputHerbs := [wHerb "人参" 1],
           dosageAnalysis := none, isCombined := none,
           combinedWith := none } : MatchResult).dosageAnalysis = none ∧
        ({ formula := wFormula ["人参"] none, score := Score.ofRat 1, matchType := .exact,
           missingHerbs := [], additionalHerbs := [], inputHerbs := [wHerb "人参" 1],
           dosageAnalysis := none, isCombined := none,
           combinedWith := none } : MatchResult).matchType ≠ .ratioMismatch)) :=
  ⟨by decide, compare_dosage_check _ _ _ (by decide)⟩

theorem sum_sq_nonneg (l : List ℚ) : 0 ≤ (l.map (fun x => x * x)).sum := by
  apply List.sum_nonneg
  intro y hy
  obtain ⟨x, -, rfl⟩ := List.mem_map.mp hy
  exact mul_self_nonneg x

/-- Discrete Cauchy–Schwarz over zipped lists of rationals. -/
theorem zip_cauchy_schwarz (xs ys : List ℚ) :
    ((xs.zip ys).map (fun p => p.1 * p.2)).sum ^ 2 ≤
      (xs.map (fun x => x * x)).sum * (ys.map (fun y => y * y)).sum := by
  induction xs generalizing ys with
  | nil => simp
  | cons x xs ih =>
    cases ys with
    | nil =>
      simp
    | cons y ys =>
      simp only [List.zip_cons_cons, List.map_cons, List.sum_cons]
      have hA : 0 ≤ (xs.map (fun x => x * x)).sum := sum_sq_nonneg xs
      have hB : 0 ≤ (ys.map (fun y => y * y)).sum := sum_sq_nonneg ys
      have hI := ih ys
      set s := ((xs.zip ys).map (fun p => p.1 * p.2)).sum with hs
      set a := (xs.map (fun x => x * x)).sum with ha
      set b := (ys.map (fun y => y * y)).sum with hb
      rcases eq_or_lt_of_le hB with hb0 | hbpos
      · have hs0 : s = 0 := by
          have h1 : s ^ 2 ≤ 0 := by nlinarith [hI]
          nlinarith [sq_nonneg s]
        rw [hs0, ← hb0]
        nlinarith [hA, sq_nonneg y]
      · nlinarith [sq_nonneg (x * b - y * s), hI, hbpos, sq_nonneg y]

theorem foldl_mul_eq_sum (l : List (ℚ × ℚ)) :
    List.foldl (fun acc p => acc + p.1 * p.2) 0 l = (l.map (fun p => p.1 * p.2)).sum := by
  rw [foldl_add_comp (fun p : ℚ × ℚ => p.1 * p.2) l 0, zero_add]

theorem foldl_sq_eq_sum (l : List ℚ) :
    List.foldl (fun acc x => acc + x * x) 0 l = (l.map (fun x => x * x)).sum := by
  rw [foldl_add_comp (fun x : ℚ => x * x) l 0, zero_add]

/-- Real value of the cosine score of two non-negative vectors with nonzero
magnitudes lies in `[0, 1]`. -/
theorem cosine_score_bounds (iv sv : List ℚ)
    (hiv : ∀ x ∈ iv, 0 ≤ x) (hsv : ∀ x ∈ sv, 0 ≤ x)
    (hmI : List.foldl (fun acc x => acc + x * x) 0 iv ≠ 0)
    (hmS : List.foldl (fun acc x => acc + x * x) 0 sv ≠ 0) :
    0 ≤ (Score.mk (List.foldl (fun acc p => acc + p.1 * p.2) 0 (iv.zip sv))
        (1 / (List.foldl (fun acc x => acc + x * x) 0 iv *
              List.foldl (fun acc x => acc + x * x) 0 sv))).toReal ∧
      (Score.mk (List.foldl (fun acc p => acc + p.1 * p.2) 0 (iv.zip sv))
        (1 / (List.foldl (fun acc x => acc + x * x) 0 iv *
              List.foldl (fun acc x => acc + x * x) 0 sv))).toReal ≤ 1 := by
  rw [foldl_sq_eq_sum] at hmI hmS
  have ha : 0 < (iv.map (fun x => x * x)).sum := lt_of_le_of_ne (sum_sq_nonneg iv) (Ne.symm hmI)
  have hb : 0 < (sv.map (fun x => x * x)).sum := lt_of_le_of_ne (sum_sq_nonneg sv) (Ne.symm hmS)
  have hs0 : 0 ≤ ((iv.zip sv).map (fun p => p.1 * p.2)).sum := by
    apply List.sum_nonneg
    intro y hy
    obtain ⟨p, hp, rfl⟩ := List.mem_map.mp hy
    obtain ⟨h1, h2⟩ := List.of_mem_zip hp
    exact mul_nonneg (hiv _ h1) (hsv _ h2)
  have hcs := zip_cauchy_schwarz iv sv
  simp only [Score.toReal, foldl_mul_eq_sum, foldl_sq_eq_sum]
  set s := ((iv.zip sv).map (fun p => p.1 * p.2)).sum
  set a := (iv.map (fun x => x * x)).sum
  set b := (sv.map (fun x => x * x)).sum
  have habR : (0:ℝ) < (a:ℝ) * (b:ℝ) := by
    have : (0:ℚ) < a * b := mul_pos ha hb
    exact_mod_cast this
  have hsq : Real.sqrt ((1 / (a * b) : ℚ) : ℝ) = (Real.sqrt ((a:ℝ) * (b:ℝ)))⁻¹ := by
    rw [show (((1 / (a * b) : ℚ)) : ℝ) = ((a:ℝ) * (b:ℝ))⁻¹ by push_cast; ring]
    exact Real.sqrt_inv _
  rw [hsq]
  have hsqrtpos : (0:ℝ) < Real.sqrt ((a:ℝ) * (b:ℝ)) := Real.sqrt_pos.mpr habR
  constructor
  · exact mul_nonneg (by exact_mod_cast hs0) (by positivity)
  · rw [← div_eq_mul_inv, div_le_one hsqrtpos]
    have hcsR : ((s:ℝ)) ^ 2 ≤ (a:ℝ) * (b:ℝ) := by exact_mod_cast hcs
    exact Real.le_sqrt_of_sq_le hcsR

theorem lookup_val_nonneg (std : DosageRec) (hstd : ∀ p ∈ std, 0 ≤ p.2) (k : String) (v : ℚ)
    (h : std.lookup k = some v) : 0 ≤ v := by
  induction std with
  | nil => exact Option.noConfusion h
  | cons p ps ih =>
    rw [List.lookup_cons] at h
    cases hk : (k == p.1) with
    | true =>
      simp only [hk] at h
      exact (Option.some.inj h) ▸ hstd p (List.mem_cons_self p ps)
    | false =>
      simp only [hk] at h
      exact ih (fun q hq => hstd q (List.mem_cons_of_mem p hq)) h

/-- The cosine ratio score denotes a real number in `[0, 1]` whenever all
input dosages and all standard-dosage values are non-negative. -/
theorem ratioSimilarity_toReal_bounds (i : List Herb) (std : DosageRec)
    (hi : ∀ h ∈ i, 0 ≤ h.dosage) (hstd : ∀ p ∈ std, 0 ≤ p.2) :
    0 ≤ (calculateRatioSimilarity i std).toReal ∧
      (calculateRatioSimilarity i std).toReal ≤ 1 := by
  simp only [calculateRatioSimilarity]
  split_ifs with h1 h2
  · rw [Score.toReal_ofRat]
    norm_num
  · rw [Score.toReal_ofRat]
    norm_num
  · simp only [Bool.or_eq_true, decide_eq_true_eq, not_or] at h2
    refine cosine_score_bounds _ _ ?_ ?_ h2.1 h2.2
    · intro x hx
      obtain ⟨k, -, rfl⟩ := List.mem_map.mp hx
      cases hf : List.find? (fun h => h.name == k) i with
      | none => simp [hf]
      | some hh =>
        simp only [hf, Option.map_some', Option.getD_some]
        exact hi hh (List.mem_of_find?_eq_some hf)
    · intro x hx
      obtain ⟨k, -, rfl⟩ := List.mem_map.mp hx
      cases hl : std.lookup k with
      | none => simp [hl]
      | some v =>
        simp only [hl, Option.getD_some]
        exact lookup_val_nonneg std hstd k v hl

/-- The base score `0.6 * recall + 0.4 * precision` lies in `[0, 1]` when the
composition has no duplicates and at least one herb overlaps. -/
theorem baseScore_bounds (i : List Herb) (f : StandardFormula)
    (hnodup : f.composition.Nodup)
    (hne : (intersectionOf i f).length ≠ 0) :
    0 ≤ baseScoreOf i f ∧ baseScoreOf i f ≤ 1 := by
  have hile : (intersectionOf i f).length ≤ f.composition.length :=
    List.length_filter_le _ _
  have hcpos : 0 < f.composition.length := by omega
  have hipos : 0 < i.length := by
    obtain ⟨c, hc⟩ := List.exists_mem_of_length_pos (by omega :
      0 < (intersectionOf i f).length)
    have hmem := List.of_mem_filter hc
    have : c ∈ i.map (·.name) := by
      simpa [List.elem_iff] using hmem
    obtain ⟨h, hh, -⟩ := List.mem_map.mp this
    exact List.length_pos.mpr (fun hnil => by simp [hnil] at hh)
  have hinle : (intersectionOf i f).length ≤ i.length := by
    have hnd : (intersectionOf i f).Nodup := hnodup.filter _
    have hsub : intersectionOf i f ⊆ i.map (·.name) := by
      intro c hc
      have hmem := List.of_mem_filter hc
      simpa [List.elem_iff] using hmem
    calc (intersectionOf i f).length ≤ (i.map (·.name)).length :=
        (hnd.subperm hsub).length_le
      _ = i.length := List.length_map _ _
  unfold baseScoreOf
  have hrec0 : (0:ℚ) ≤ (intersectionOf i f).length / f.composition.length := by positivity
  have hrec1 : ((intersectionOf i f).length : ℚ) / f.composition.length ≤ 1 := by
    rw [div_le_one (by exact_mod_cast hcpos)]
    exact_mod_cast hile
  have hpre0 : (0:ℚ) ≤ (intersectionOf i f).length / i.length := by positivity
  have hpre1 : ((intersectionOf i f).length : ℚ) / i.length ≤ 1 := by
    rw [div_le_one (by exact_mod_cast hipos)]
    exact_mod_cast hinle
  constructor
  · positivity
  · nlinarith [hrec1, hpre1, hrec0, hpre0]

/-- Claim C8 as amended: for inputs with non-negative dosages and formulas
whose composition has no duplicate names and whose standard dosage (when
present) has non-negative values, every score the matcher returns lies in
`[0, 1]`. -/
theorem score_in_unit_interval (inputHerbs : List Herb) (formula : StandardFormula)
    (r : MatchResult)
    (hdos : ∀ h ∈ inputHerbs, 0 ≤ h.dosage)
    (hnodup : formula.composition.Nodup)
    (hstd : ∀ std, formula.standardDosage = some std → ∀ p ∈ std, 0 ≤ p.2)
    (hr : compareFormulaWithInput inputHerbs formula = some r) :
    0 ≤ r.score.toReal ∧ r.score.toReal ≤ 1 := by
  have hne : (intersectionOf inputHerbs formula).length ≠ 0 := by
    intro h0
    have hr' := hr
    simp only [compareFormulaWithInput, if_pos h0] at hr'
    exact Option.noConfusion hr'
  have hinv := compare_some_inv inputHerbs formula r hr
  subst hinv
  by_cases hcls : (classifyStep inputHerbs formula).1 = .exact
  · simp only [hcls, if_true]
    cases hsd : formula.standardDosage with
    | none =>
      simp only [exactDosageStep, hsd]
      rw [Score.toReal_ofRat]
      norm_num
    | some std =>
      by_cases hall : inputHerbs.all (fun h => 0 < h.dosage) = true
      · by_cases hlt : Score.lt (calculateRatioSimilarity inputHerbs std)
            (Score.ofRat (85/100)) = true
        · simp only [exactDosageStep, hsd, hall, if_true, hlt]
          rw [Score.toReal_one_mul]
          exact ratioSimilarity_toReal_bounds inputHerbs std hdos (hstd std hsd)
        · simp only [exactDosageStep, hsd, hall, if_true, hlt, Bool.false_eq_true, if_false]
          rw [Score.toReal_ofRat]
          norm_num
      · have hall' : inputHerbs.all (fun h => 0 < h.dosage) = false :=
          Bool.eq_false_iff.mpr hall
        simp only [exactDosageStep, hsd, hall', Bool.false_eq_true, if_false]
        rw [Score.toReal_ofRat]
        norm_num
  · simp only [hcls, if_false]
    rw [Score.toReal_ofRat]
    have hb := baseScore_bounds inputHerbs formula hnodup hne
    have hcls' : classifyBase (missingOf inputHerbs formula)
        (additionalOf inputHerbs formula) ≠ .exact := by
      simpa [classifyStep] using hcls
    have hstep : (classifyStep inputHerbs formula).2 = baseScoreOf inputHerbs formula := by
      simp [classifyStep, hcls']
    rw [hstep]
    exact ⟨by exact_mod_cast hb.1, by exact_mod_cast hb.2⟩

/-- Counterexample to claim C8: a formula whose composition repeats the same
name three times yields, on a two-herb input with non-negative dosages, a
non-null `subset` result whose score is `1.2`, outside `[0, 1]`. -/
theorem compare_score_claim_cex :
    (compareFormulaWithInput [wHerb "人参" 1, wHerb "黄芪" 1]
        (wFormula ["人参", "人参", "人参"] none)).map (fun m => m.score) =
      some (Score.ofRat (6/5)) ∧
    (∀ h ∈ [wHerb "人参" 1, wHerb "黄芪" 1], 0 ≤ h.dosage) ∧
    ¬((Score.ofRat (6/5)).toReal ≤ 1) := by
  refine ⟨?_, by decide, ?_⟩
  · have hint : intersectionOf [wHerb "人参" 1, wHerb "黄芪" 1]
        (wFormula ["人参", "人参", "人参"] none) = ["人参", "人参", "人参"] := by decide
    have hmiss : missingOf [wHerb "人参" 1, wHerb "黄芪" 1]
        (wFormula ["人参", "人参", "人参"] none) = [] := by decide
    have hadd : additionalOf [wHerb "人参" 1, wHerb "黄芪" 1]
        (wFormula ["人参", "人参", "人参"] none) = [wHerb "黄芪" 1] := by decide
    have hbase : baseScoreOf [wHerb "人参" 1, wHerb "黄芪" 1]
        (wFormula ["人参", "人参", "人参"] none) = 6/5 := by
      rw [baseScoreOf, hint]
      norm_num [wFormula]
    have hcls : classifyStep [wHerb "人参" 1, wHerb "黄芪" 1]
        (wFormula ["人参", "人参", "人参"] none) =
        (.subset, baseScoreOf [wHerb "人参" 1, wHerb "黄芪" 1]
          (wFormula ["人参", "人参", "人参"] none)) := by
      rw [classifyStep, hmiss, hadd]
      simp [classifyBase]
    simp only [compareFormulaWithInput, hint, hcls]
    norm_num [Score.ofRat, hbase]
    rw [if_neg (by decide : ¬(MatchType.subset = MatchType.exact))]
  · rw [Score.toReal_ofRat]
    intro hc
    norm_num at hc

/-- Witness for the amended claim C8 at a one-herb exact match. -/
theorem score_in_unit_interval_witness :
    (∀ h ∈ [wHerb "人参" 1], 0 ≤ h.dosage) ∧
    (wFormula ["人参"] none).composition.Nodup ∧
    (∀ std, (wFormula ["人参"] none).standardDosage = some std → ∀ p ∈ std, 0 ≤ p.2) ∧
    compareFormulaWithInput [wHerb "人参" 1] (wFormula ["人参"] none) =
      some { formula := wFormula ["人参"] none, score := Score.ofRat 1, matchType := .exact,
             missingHerbs := [], additionalHerbs := [], inputHerbs := [wHerb "人参" 1],
             dosageAnalysis := none, isCombined := none, combinedWith := none } ∧
    (0 ≤ ({ formula := wFormula ["人参"] none, score := Score.ofRat 1, matchType := .exact,
            missingHerbs := [], additionalHerbs := [], inputHerbs := [wHerb "人参" 1],
            dosageAnalysis := none, isCombined := none,
            combinedWith := none } : MatchResult).score.toReal ∧
      ({ formula := wFormula ["人参"] none, score := Score.ofRat 1, matchType := .exact,
         missingHerbs := [], additionalHerbs := [], inputHerbs := [wHerb "人参" 1],
         dosageAnalysis := none, isCombined := none,
         combinedWith := none } : MatchResult).score.toReal ≤ 1) := by
  refine ⟨by decide, by decide, fun std h => Option.noConfusion h, by decide, ?_⟩
  exact score_in_unit_interval [wHerb "人参" 1] (wFormula ["人参"] none) _
    (by decide) (by decide) (fun std h => Option.noConfusion h) (by decide)

theorem digitChar_toNat (d : ℕ) (h : d < 10) : (digitChar d).toNat = 48 + d := by
  interval_cases d <;> decide

theorem digitChar_classes (d : ℕ) (h : d < 10) :
    isDigitCh (digitChar d) = true ∧ isDecoderDelim (digitChar d) = false ∧
      isCJK (digitChar d) = false := by
  interval_cases d <;> decide

theorem natDigits_props (n : ℕ) :
    natDigits n ≠ [] ∧
      ∀ c ∈ natDigits n, isDigitCh c = true ∧ isDecoderDelim c = false ∧ isCJK c = false := by
  induction n using Nat.strong_induction_on with
  | _ n ih =>
    rw [natDigits]
    split_ifs with h
    · refine ⟨by simp, ?_⟩
      intro c hc
      rw [List.mem_singleton] at hc
      subst hc
      exact digitChar_classes n h
    · have ihd := ih (n / 10) (Nat.div_lt_self (by omega) (by omega))
      refine ⟨by simp [ihd.1], ?_⟩
      intro c hc
      rcases List.mem_append.mp hc with hc1 | hc2
      · exact ihd.2 c hc1
      · rw [List.mem_singleton] at hc2
        subst hc2
        exact digitChar_classes (n % 10) (Nat.mod_lt _ (by omega))

theorem digitsVal_append_one (xs : List Char) (c : Char) :
    digitsVal (xs ++ [c]) = digitsVal xs * 10 + (c.toNat - 48) := by
  simp [digitsVal, List.foldl_append]

theorem digitsVal_natDigits (n : ℕ) : digitsVal (natDigits n) = n := by
  induction n using Nat.strong_induction_on with
  | _ n ih =>
    rw [natDigits]
    split_ifs with h
    · simp [digitsVal, digitChar_toNat n h]
    · rw [digitsVal_append_one, ih (n / 10) (Nat.div_lt_self (by omega) (by omega)),
        digitChar_toNat (n % 10) (Nat.mod_lt _ (by omega))]
      omega

theorem natDigits_length_le (k : ℕ) (n : ℕ) (hk : 1 ≤ k) (h : n < 10 ^ k) :
    (natDigits n).length ≤ k := by
  induction k generalizing n with
  | zero => omega
  | succ k ihk =>
    rw [natDigits]
    split_ifs with h10
    · simp
    · have hkpos : 1 ≤ k := by
        rcases Nat.eq_zero_or_pos k with rfl | hp
        · norm_num at h
          omega
        · exact hp
      have hdiv : n / 10 < 10 ^ k := by
        rw [pow_succ, mul_comm] at h
        exact Nat.div_lt_of_lt_mul h
      have := ihk (n / 10) hkpos hdiv
      simp only [List.length_append, List.length_cons, List.length_nil]
      omega

theorem foldl_digits_replicate_zero (m : ℕ) :
    List.foldl (fun acc c => acc * 10 + (c.toNat - 48)) 0 (List.replicate m '0') = 0 := by
  induction m with
  | zero => rfl
  | succ m ih => simpa [List.replicate_succ] using ih

theorem digitsVal_padZeros (k : ℕ) (l : List Char) :
    digitsVal (padZeros k l) = digitsVal l := by
  unfold padZeros digitsVal
  rw [List.foldl_append]
  rw [foldl_digits_replicate_zero]

theorem padZeros_length (k : ℕ) (l : List Char) (h : l.length ≤ k) :
    (padZeros k l).length = k := by
  simp [padZeros]
  omega

theorem padZeros_mem (k : ℕ) (l : List Char) (c : Char) (hc : c ∈ padZeros k l) :
    c = '0' ∨ c ∈ l := by
  rcases List.mem_append.mp hc with h1 | h2
  · exact Or.inl (List.eq_of_mem_replicate h1)
  · exact Or.inr h2

theorem takeWhile_all (p : Char → Bool) (l : List Char) (hl : ∀ x ∈ l, p x = true) :
    l.takeWhile p = l := by
  induction l with
  | nil => rfl
  | cons x xs ih =>
    rw [List.takeWhile_cons, if_pos (hl x (List.mem_cons_self x xs))]
    rw [ih (fun y hy => hl y (List.mem_cons_of_mem x hy))]

theorem takeWhile_append_stop (p : Char → Bool) (xs : List Char) (c : Char) (ys : List Char)
    (hxs : ∀ x ∈ xs, p x = true) (hc : p c = false) :
    (xs ++ c :: ys).takeWhile p = xs := by
  induction xs with
  | nil =>
    rw [List.nil_append, List.takeWhile_cons, if_neg (by simp [hc])]
  | cons x xs ih =>
    rw [List.cons_append, List.takeWhile_cons, if_pos (hxs x (List.mem_cons_self x xs))]
    rw [ih (fun y hy => hxs y (List.mem_cons_of_mem x hy))]

theorem dvd_ten_pow_self (d K : ℕ) (h : d ∣ 10 ^ K) : d ∣ 10 ^ d := by
  have h2 : (10:ℕ) ^ K = 2 ^ K * 5 ^ K := by
    rw [show (10:ℕ) = 2 * 5 by norm_num, mul_pow]
  rw [h2] at h
  obtain ⟨d2, d5, hd2, hd5, hmul⟩ := Nat.dvd_mul.mp h
  obtain ⟨a, ha, rfl⟩ := (Nat.dvd_prime_pow Nat.prime_two).mp hd2
  obtain ⟨b, hb, rfl⟩ := (Nat.dvd_prime_pow (by norm_num : Nat.Prime 5)).mp hd5
  subst hmul
  have haa : a ≤ 2 ^ a * 5 ^ b :=
    le_trans (Nat.lt_two_pow a).le (Nat.le_mul_of_pos_right _ (by positivity))
  have hbb : b ≤ 2 ^ a * 5 ^ b := by
    have hb5 : b < 5 ^ b := Nat.lt_pow_self (by norm_num) b
    calc b ≤ 5 ^ b := hb5.le
      _ ≤ 2 ^ a * 5 ^ b := Nat.le_mul_of_pos_left _ (by positivity)
  have hdvd : 2 ^ a * 5 ^ b ∣ 2 ^ (2 ^ a * 5 ^ b) * 5 ^ (2 ^ a * 5 ^ b) :=
    mul_dvd_mul (pow_dvd_pow 2 haa) (pow_dvd_pow 5 hbb)
  rwa [show (10:ℕ) = 2 * 5 by norm_num, mul_pow]

/-- Stringifying a non-negative value with a finite decimal expansion yields a
chunk the codec regex accepts, whose `parseFloat` value is the original
number, made of digits and at most one dot. -/
theorem parse_format (v : ℚ) (hv : 0 ≤ v) (K : ℕ) (hK : v.den ∣ 10 ^ K)
    (hrange : v = 0 ∨ (1 : ℚ) / 10 ^ 6 ≤ v ∧ v < 10 ^ 21) :
    isNumShape2 (formatJsNumber v) = true ∧
    parseDecimal (formatJsNumber v) = v ∧
    ∀ c ∈ formatJsNumber v, isDigitCh c = true ∨ c = '.' := by
  have hden : 0 < v.den := v.pos
  have hdd : v.den ∣ 10 ^ v.den := dvd_ten_pow_self v.den K hK
  have hsome : ((List.range (v.den + 1)).find? (fun k => 10 ^ k % v.den == 0)).isSome := by
    rw [List.find?_isSome]
    refine ⟨v.den, by simp, ?_⟩
    have hm : 10 ^ v.den % v.den = 0 := Nat.dvd_iff_mod_eq_zero.mp hdd
    simpa using hm
  obtain ⟨k, hk⟩ := Option.isSome_iff_exists.mp hsome
  have hkp : 10 ^ k % v.den = 0 := by simpa using List.find?_some hk
  have hkdvd : v.den ∣ 10 ^ k := Nat.dvd_of_mod_eq_zero hkp
  have hnum : ((v.num.toNat : ℕ) : ℚ) = (v.num : ℚ) := by
    have h1 : (v.num.toNat : ℤ) = v.num := Int.toNat_of_nonneg (Rat.num_nonneg.mpr hv)
    exact_mod_cast h1
  set N := v.num.toNat * (10 ^ k / v.den) with hN
  have hval : (N : ℚ) = v * 10 ^ k := by
    have hcd : ((10 ^ k / v.den : ℕ) : ℚ) = (10 ^ k : ℚ) / (v.den : ℚ) := by
      rw [Nat.cast_div hkdvd (by exact_mod_cast hden.ne')]
      push_cast
      ring
    have hvd : (v.num : ℚ) / (v.den : ℚ) = v := Rat.num_div_den v
    rw [hN]
    push_cast
    rw [hcd, hnum]
    calc (v.num : ℚ) * ((10 : ℚ) ^ k / (v.den : ℚ))
        = ((v.num : ℚ) / (v.den : ℚ)) * 10 ^ k := by ring
      _ = v * 10 ^ k := by rw [hvd]
  have hfmt : formatJsNumber v = (plainDecimal v).getD [] := by
    unfold formatJsNumber formatNonnegDecimal
    rw [if_neg (not_lt.mpr hv), if_pos hrange]
  by_cases hk0 : k = 0
  · have hfd : formatJsNumber v = natDigits N := by
      rw [hfmt]
      unfold plainDecimal
      simp only [hk, if_pos hk0, Option.getD_some]
    rw [hfd]
    have hvN : (N : ℚ) = v := by
      rw [hval, hk0]
      norm_num
    have hnd := natDigits_props N
    refine ⟨?_, ?_, ?_⟩
    · unfold isNumShape2
      rw [takeWhile_all _ _ (fun x hx => (hnd.2 x hx).1)]
      simp [List.drop_length, List.isEmpty_iff, hnd.1]
    · unfold parseDecimal
      rw [takeWhile_all _ _ (fun x hx => (hnd.2 x hx).1)]
      simp only [List.drop_length]
      rw [digitsVal_natDigits]
      exact hvN
    · intro c hc
      exact Or.inl (hnd.2 c hc).1
  · have hfd : formatJsNumber v =
        natDigits (N / 10 ^ k) ++ '.' :: padZeros k (natDigits (N % 10 ^ k)) := by
      rw [hfmt]
      unfold plainDecimal
      simp only [hk, if_neg hk0, Option.getD_some]
    rw [hfd]
    have hkpos : 1 ≤ k := by omega
    have hndA := natDigits_props (N / 10 ^ k)
    have hBlt : N % 10 ^ k < 10 ^ k := Nat.mod_lt _ (by positivity)
    have hlenB : (natDigits (N % 10 ^ k)).length ≤ k := natDigits_length_le k _ hkpos hBlt
    have hpadlen : (padZeros k (natDigits (N % 10 ^ k))).length = k := padZeros_length k _ hlenB
    have hdot : isDigitCh '.' = false := by decide
    have htw : ((natDigits (N / 10 ^ k) ++
        '.' :: padZeros k (natDigits (N % 10 ^ k))).takeWhile isDigitCh) =
          natDigits (N / 10 ^ k) :=
      takeWhile_append_stop _ _ _ _ (fun x hx => (hndA.2 x hx).1) hdot
    have hdrop : (natDigits (N / 10 ^ k) ++
        '.' :: padZeros k (natDigits (N % 10 ^ k))).drop (natDigits (N / 10 ^ k)).length =
          '.' :: padZeros k (natDigits (N % 10 ^ k)) := List.drop_left _ _
    have hpdigits : ∀ c ∈ padZeros k (natDigits (N % 10 ^ k)), isDigitCh c = true := by
      intro c hc
      rcases padZeros_mem k _ c hc with rfl | hcm
      · decide
      · exact ((natDigits_props (N % 10 ^ k)).2 c hcm).1
    have hpadne : padZeros k (natDigits (N % 10 ^ k)) ≠ [] := by
      intro hnil
      rw [hnil] at hpadlen
      simp at hpadlen
      omega
    refine ⟨?_, ?_, ?_⟩
    · unfold isNumShape2
      simp only [htw, hdrop]
      simp [List.isEmpty_iff, hndA.1, hpadne, List.all_eq_true]
      exact hpdigits
    · unfold parseDecimal
      simp only [htw, hdrop]
      rw [digitsVal_natDigits, digitsVal_padZeros, digitsVal_natDigits, hpadlen]
      have hNsplit : 10 ^ k * (N / 10 ^ k) + N % 10 ^ k = N := Nat.div_add_mod N (10 ^ k)
      have h10 : ((10:ℚ)) ^ k ≠ 0 := by positivity
      have hcast := congrArg (fun t : ℕ => (t : ℚ)) hNsplit
      push_cast at hcast
      have hvNdiv : v = (N : ℚ) / 10 ^ k := by
        rw [hval]
        field_simp
      rw [hvNdiv]
      field_simp
      linarith [hcast]
    · intro c hc
      rcases List.mem_append.mp hc with h1 | h2
      · exact Or.inl (hndA.2 c h1).1
      · rcases List.mem_cons.mp h2 with rfl | hm
        · exact Or.inr rfl
        · exact Or.inl (hpdigits c hm)

theorem digit_not_delim (c : Char) (h : isDigitCh c = true) : isDecoderDelim c = false := by
  simp only [isDigitCh, Bool.and_eq_true, decide_eq_true_eq] at h
  refine Bool.eq_false_iff.mpr fun hd => ?_
  simp only [isDecoderDelim, isJsWhitespace, Bool.or_eq_true,
    decide_eq_true_eq, Bool.and_eq_true] at hd
  omega

theorem cjk_not_delim (c : Char) (h : isCJK c = true) : isDecoderDelim c = false := by
  simp only [isCJK, Bool.and_eq_true, decide_eq_true_eq] at h
  refine Bool.eq_false_iff.mpr fun hd => ?_
  simp only [isDecoderDelim, isJsWhitespace, Bool.or_eq_true,
    decide_eq_true_eq, Bool.and_eq_true] at hd
  omega

theorem splitRunsGo_nondelim (p : Char → Bool) (t : List Char) :
    ∀ (cur r : List Char), (∀ x ∈ t, p x = false) →
      splitRunsGo p cur (t ++ r) = splitRunsGo p (t.reverse ++ cur) r := by
  induction t with
  | nil => intro cur r _; simp
  | cons c cs ih =>
    intro cur r ht
    rw [List.cons_append]
    simp only [splitRunsGo]
    rw [if_neg (by simp [ht c (List.mem_cons_self c cs)])]
    rw [ih (c :: cur) r (fun x hx => ht x (List.mem_cons_of_mem c hx))]
    congr 1
    simp

theorem splitRunsSkip_eq_go (p : Char → Bool) (c : Char) (rest : List Char)
    (hc : p c = false) :
    splitRunsSkip p (c :: rest) = splitRunsGo p [] (c :: rest) := by
  simp only [splitRunsSkip, splitRunsGo]
  rw [if_neg (by simp [hc]), if_neg (by simp [hc])]

theorem joinSpace_cons_ne_nil (c : List Char) (cs : List (List Char)) (hc : c ≠ []) :
    joinSpace (c :: cs) ≠ [] := by
  cases cs with
  | nil => simpa [joinSpace] using hc
  | cons c' cs' =>
    simp only [joinSpace]
    intro hcon
    rcases List.append_eq_nil.mp hcon with ⟨-, h2⟩
    exact List.cons_ne_nil _ _ h2

theorem splitOnRuns_joinSpace (p : Char → Bool) (hsp : p ' ' = true) :
    ∀ chunks : List (List Char), chunks ≠ [] →
      (∀ c ∈ chunks, c ≠ [] ∧ ∀ ch ∈ c, p ch = false) →
      splitOnRuns p (joinSpace chunks) = chunks := by
  intro chunks
  induction chunks with
  | nil => intro hne _; exact absurd rfl hne
  | cons c cs ih =>
    intro _ hch
    cases cs with
    | nil =>
      show splitRunsGo p [] (joinSpace [c]) = [c]
      have hj : joinSpace [c] = c ++ [] := by simp [joinSpace]
      rw [hj, splitRunsGo_nondelim p c [] [] (hch c (List.mem_cons_self c [])).2]
      simp [splitRunsGo]
    | cons c' cs' =>
      show splitRunsGo p [] (joinSpace (c :: c' :: cs')) = c :: c' :: cs'
      have hj : joinSpace (c :: c' :: cs') = c ++ ' ' :: joinSpace (c' :: cs') := rfl
      rw [hj, splitRunsGo_nondelim p c [] _ (hch c (List.mem_cons_self c _)).2]
      simp only [splitRunsGo]
      rw [if_pos (by simp [hsp])]
      have hc'ne : c' ≠ [] := (hch c' (List.mem_cons_of_mem c (List.mem_cons_self c' cs'))).1
      obtain ⟨ch, tl, hct⟩ : ∃ ch tl, c' = ch :: tl := by
        cases c' with
        | nil => exact absurd rfl hc'ne
        | cons x xs => exact ⟨x, xs, rfl⟩
      obtain ⟨t, hjt⟩ : ∃ t, joinSpace (c' :: cs') = c' ++ t := by
        cases cs' with
        | nil => exact ⟨[], by simp [joinSpace]⟩
        | cons d ds => exact ⟨' ' :: joinSpace (d :: ds), rfl⟩
      have hhead : joinSpace (c' :: cs') = ch :: (tl ++ t) := by
        rw [hjt, hct]
        rfl
      have hchd : p ch = false :=
        (hch c' (List.mem_cons_of_mem c (List.mem_cons_self c' cs'))).2 ch
          (by rw [hct]; exact List.mem_cons_self ch tl)
      rw [hhead, splitRunsSkip_eq_go p ch _ hchd, ← hhead]
      have hih := ih (List.cons_ne_nil c' cs')
        (fun d hd => hch d (List.mem_cons_of_mem c hd))
      rw [show splitRunsGo p [] (joinSpace (c' :: cs')) =
        splitOnRuns p (joinSpace (c' :: cs')) from rfl, hih]
      simp

theorem dosageChunk_encode (name : List Char) (v : ℚ)
    (hname : name ≠ []) (hcjk : ∀ c ∈ name, isCJK c = true)
    (hshape : isNumShape2 (formatJsNumber v) = true) :
    dosageChunk (name ++ ':' :: formatJsNumber v) =
      some (String.mk name, parseDecimal (formatJsNumber v)) := by
  unfold dosageChunk
  have hcolon : isCJK ':' = false := by decide
  have htw := takeWhile_append_stop isCJK name ':' (formatJsNumber v) hcjk hcolon
  have hdrop := List.drop_left name (':' :: formatJsNumber v)
  simp only [htw, hdrop]
  have hne : name.isEmpty = false := by
    cases name with
    | nil => exact absurd rfl hname
    | cons x xs => rfl
  simp [hne, hshape]

theorem any_key_eq_false (acc : DosageRec) (k : String) (h : ∀ q ∈ acc, q.1 ≠ k) :
    (acc.any (fun p => p.1 == k)) = false := by
  rw [List.any_eq_false]
  intro q hq
  simp [h q hq]

theorem recordSet_fresh (acc : DosageRec) (k : String) (v : ℚ) (h : ∀ q ∈ acc, q.1 ≠ k) :
    recordSet acc k v = acc ++ [(k, v)] := by
  unfold recordSet
  rw [if_neg (by simp [any_key_eq_false acc k h])]

theorem foldl_decode_fresh (m : DosageRec) :
    ∀ acc : DosageRec,
      (∀ p ∈ m, dosageChunk (p.1.data ++ ':' :: formatJsNumber p.2) = some p) →
      ((m.map (·.1)).Nodup) →
      (∀ p ∈ m, ∀ q ∈ acc, q.1 ≠ p.1) →
      (m.map (fun p => p.1.data ++ ':' :: formatJsNumber p.2)).foldl
        (fun result part =>
          match dosageChunk part with
          | some (name, amount) => recordSet result name amount
          | none => result) acc = acc ++ m := by
  induction m with
  | nil =>
    intro acc _ _ _
    simp
  | cons p ps ih =>
    obtain ⟨pk, pv⟩ := p
    intro acc hch hnd hfresh
    simp only [List.map_cons, List.foldl_cons]
    simp only [hch (pk, pv) (List.mem_cons_self _ _)]
    rw [recordSet_fresh acc pk pv (hfresh (pk, pv) (List.mem_cons_self _ _))]
    rw [ih (acc ++ [(pk, pv)])
      (fun q hq => hch q (List.mem_cons_of_mem _ hq))
      ((List.nodup_cons.mp (by simpa using hnd)).2)
      ?_]
    · simp
    · intro q hq r hr
      rcases List.mem_append.mp hr with h1 | h2
      · exact hfresh q (List.mem_cons_of_mem _ hq) r h1
      · rw [List.mem_singleton] at h2
        subst h2
        have hpk : pk ∉ ps.map (·.1) := (List.nodup_cons.mp (by simpa using hnd)).1
        intro hcon
        apply hpk
        rw [show pk = q.1 from hcon]
        exact List.mem_map_of_mem (·.1) hq

/-- Witness for the amended claim C10 at the token `麻黄9g`. -/
theorem parseFormulaInput_entry_invariants_witness :
    (⟨"麻黄", 9, "g", "麻黄9g"⟩ : Herb) ∈ parseFormulaInput [] "麻黄9g" ∧
    (0 ≤ (⟨"麻黄", 9, "g", "麻黄9g"⟩ : Herb).dosage ∧
      (⟨"麻黄", 9, "g", "麻黄9g"⟩ : Herb).unit ≠ "" ∧
      ∃ t ∈ tokenize "麻黄9g", ∃ caps, tokenCaptures t = some caps ∧
        (⟨"麻黄", 9, "g", "麻黄9g"⟩ : Herb) = mkHerb [] t caps ∧
        (⟨"麻黄", 9, "g", "麻黄9g"⟩ : Herb).originalText = String.mk t ∧
        (⟨"麻黄", 9, "g", "麻黄9g"⟩ : Herb).dosage =
          (match caps.num with | some ds => parseDecimal ds | none => (0 : ℚ)) ∧
        (caps.num = none → (⟨"麻黄", 9, "g", "麻黄9g"⟩ : Herb).dosage = 0) ∧
        (caps.unitStr = none → (⟨"麻黄", 9, "g", "麻黄9g"⟩ : Herb).unit = "g")) :=
  ⟨by decide, parseFormulaInput_entry_invariants [] "麻黄9g" _ (by decide)⟩

/-- Counterexample to claim C4 as stated: the single-entry map 甘草 ↦ 10^21
satisfies every hypothesis of the claim (a non-empty CJK-only key and a
non-negative value with a finite decimal expansion), yet the encoder
stringifies the value in exponent notation, producing `甘草:1e+21`; the
decoder's chunk regex rejects that chunk, so the round trip returns the
empty map instead of the original. -/
theorem codec_round_trip_cex :
    ¬ (∀ m : DosageRec,
        (∀ p ∈ m, p.1.data ≠ [] ∧ ∀ c ∈ p.1.data, isCJK c = true) →
        (m.map (·.1)).Nodup →
        (∀ p ∈ m, 0 ≤ p.2 ∧ ∃ K, p.2.den ∣ 10 ^ K) →
        parseDosageString (formatDosageToString (some m)) = m) := by
  intro hclaim
  have h1 : ¬ ((1000000000000000000000 : ℚ) < 0) := by norm_num
  have h2 : ¬ ((1000000000000000000000 : ℚ) = 0 ∨
      (1 : ℚ) / 10 ^ 6 ≤ 1000000000000000000000 ∧
        (1000000000000000000000 : ℚ) < 10 ^ 21) := by norm_num
  have hden : (1000000000000000000000 : ℚ).den = 1 := by simp
  have hnum : (1000000000000000000000 : ℚ).num = 1000000000000000000000 := by simp
  have hfind : (List.range (1 + 1)).find? (fun k => 10 ^ k % 1 == 0) = some 0 := by decide
  have hN : (1000000000000000000000 : ℤ).toNat * (10 ^ 0 / 1) = 1000000000000000000000 := rfl
  have hstrip : stripTens 1000000000000000000000 = (1, 21) := by simp [stripTens]
  have hd1 : natDigits 1 = ['1'] := by simp [natDigits]; decide
  have hd21 : natDigits 21 = ['2', '1'] := by simp [natDigits]; decide
  have hfmt : formatJsNumber (1000000000000000000000 : ℚ) = ['1', 'e', '+', '2', '1'] := by
    unfold formatJsNumber formatNonnegDecimal
    rw [if_neg h1, if_neg h2]
    unfold expDigits
    rw [hden, hnum, hfind]
    simp only [hN, hstrip, hd1]
    unfold expRender
    norm_num [hd21]
  have henc : formatDosageToString (some [("甘草", (1000000000000000000000 : ℚ))]) =
      String.mk ['甘', '草', ':', '1', 'e', '+', '2', '1'] := by
    unfold formatDosageToString joinSpace
    simp only [List.map_cons, List.map_nil, hfmt]
    rfl
  have hinst := hclaim [("甘草", (1000000000000000000000 : ℚ))]
    (by decide) (by decide)
    (by
      intro q hq
      rw [List.mem_singleton] at hq
      subst hq
      exact ⟨by norm_num, 0, by simp⟩)
  rw [henc] at hinst
  have hdec : parseDosageString (String.mk ['甘', '草', ':', '1', 'e', '+', '2', '1']) = [] := by
    decide
  rw [hdec] at hinst
  exact List.noConfusion hinst

/-- Claim C4 (amended): for every dosage map whose keys are non-empty
CJK-only strings, pairwise distinct, and whose values are non-negative
numbers with a finite decimal expansion that stringify in positional
notation (zero, or in `[10 ^ -6, 10 ^ 21)`), decoding the encoded string
reproduces the map exactly:
`parseDosageString (formatDosageToString m) = m`. Outside that window the
encoder emits exponent notation, which the decoder rejects. -/
theorem codec_round_trip (m : DosageRec)
    (hkeys : ∀ p ∈ m, p.1.data ≠ [] ∧ ∀ c ∈ p.1.data, isCJK c = true)
    (hnd : (m.map (·.1)).Nodup)
    (hvals : ∀ p ∈ m, 0 ≤ p.2 ∧ ∃ K, p.2.den ∣ 10 ^ K)
    (hrange : ∀ p ∈ m, p.2 = 0 ∨ (1 : ℚ) / 10 ^ 6 ≤ p.2 ∧ p.2 < 10 ^ 21) :
    parseDosageString (formatDosageToString (some m)) = m := by
  have hchunkok : ∀ ch ∈ m.map (fun q => q.1.data ++ ':' :: formatJsNumber q.2),
      ch ≠ [] ∧ ∀ c ∈ ch, isDecoderDelim c = false := by
    intro ch hch
    rw [List.mem_map] at hch
    obtain ⟨q, hq, rfl⟩ := hch
    refine ⟨?_, ?_⟩
    · intro hcon
      rcases List.append_eq_nil.mp hcon with ⟨-, h2⟩
      exact List.cons_ne_nil _ _ h2
    · intro c hc
      rcases List.mem_append.mp hc with h1 | h2
      · exact cjk_not_delim c ((hkeys q hq).2 c h1)
      · rcases List.mem_cons.mp h2 with rfl | hm
        · decide
        · obtain ⟨hv, K, hK⟩ := hvals q hq
          rcases (parse_format q.2 hv K hK (hrange q hq)).2.2 c hm with hd | hdot
          · exact digit_not_delim c hd
          · subst hdot; decide
  cases m with
  | nil => rfl
  | cons p ps =>
    have hdata : (formatDosageToString (some (p :: ps))).data =
        joinSpace ((p :: ps).map (fun q => q.1.data ++ ':' :: formatJsNumber q.2)) := rfl
    have hheadne : p.1.data ++ ':' :: formatJsNumber p.2 ≠ [] := by
      intro hcon
      rcases List.append_eq_nil.mp hcon with ⟨-, h2⟩
      exact List.cons_ne_nil _ _ h2
    have hjoinne :
        joinSpace ((p.1.data ++ ':' :: formatJsNumber p.2) ::
          ps.map (fun q => q.1.data ++ ':' :: formatJsNumber q.2)) ≠ [] :=
      joinSpace_cons_ne_nil _ _ hheadne
    unfold parseDosageString
    rw [hdata]
    rw [if_neg (by simp [List.isEmpty_iff, hjoinne])]
    rw [splitOnRuns_joinSpace isDecoderDelim (by decide) _ (by simp) hchunkok]
    have hench : ∀ q ∈ p :: ps,
        dosageChunk (q.1.data ++ ':' :: formatJsNumber q.2) = some q := by
      intro q hq
      obtain ⟨hv, K, hK⟩ := hvals q hq
      have hpf := parse_format q.2 hv K hK (hrange q hq)
      have henc := dosageChunk_encode q.1.data q.2 (hkeys q hq).1 (hkeys q hq).2 hpf.1
      rw [henc, hpf.2.1]
    rw [foldl_decode_fresh (p :: ps) [] hench hnd
      (fun q _ r hr => absurd hr (List.not_mem_nil r))]
    simp

/-- Witness for the amended C4 at the single-entry map 甘草 ↦ 9. -/
theorem codec_round_trip_witness :
    (∀ q ∈ ([("甘草", (9:ℚ))] : DosageRec), q.1.data ≠ [] ∧ ∀ c ∈ q.1.data, isCJK c = true) ∧
    parseDosageString (formatDosageToString (some [("甘草", (9:ℚ))])) = [("甘草", (9:ℚ))] :=
  ⟨by decide, codec_round_trip [("甘草", 9)] (by decide) (by decide)
    (by
      intro q hq
      rw [List.mem_singleton] at hq
      subst hq
      exact ⟨by norm_num, 0, by simp⟩)
    (by
      intro q hq
      rw [List.mem_singleton] at hq
      subst hq
      exact Or.inr ⟨by norm_num, by norm_num⟩)⟩

end TOT
